import Mathlib

/-!
Verification of the Tarjan + Szwarcfiter–Lauer elementary-cycle enumerator.

The Python source (week2/TRSL.py, week1/SL1.py, week2/testing/testing.py) is
shallowly embedded below.  Vertices are natural numbers; a graph is an
association list mapping a vertex to its ordered successor list (mirroring a
Python dict with insertion order).  Mutable per-object state becomes explicit
state records; the unbounded recursions of `_strongconnect`, `cycle` and
`_unmark` are given a fuel parameter, with `none` meaning fuel exhaustion.
-/

namespace TRSL

abbrev V := Nat

/-- A directed graph: association list from vertex to ordered successor list
(Python `dict`, insertion order kept). -/
abbrev Graph := List (V × List V)

/-- `graph.get(v, [])`. -/
def succs (g : Graph) (v : V) : List V := (g.lookup v).getD []

/-- The keys of the graph dict, in insertion order (`for node in self.graph`). -/
def keys (g : Graph) : List V := g.map Prod.fst

/-- Every vertex named in some successor list. -/
def allSuccs (g : Graph) : List V := (g.map Prod.snd).flatten

/-- Every vertex the program can touch: keys plus successor entries. -/
def verts (g : Graph) : List V := keys g ++ allSuccs g

/-- Pointwise update of a map represented as a function. -/
def upd {α : Type} (m : V → α) (k : V) (a : α) : V → α :=
  fun x => if x = k then a else m x

@[simp] theorem upd_same {α : Type} (m : V → α) (k : V) (a : α) : upd m k a k = a := by
  simp [upd]

@[simp] theorem upd_ne {α : Type} (m : V → α) (k : V) (a : α) (x : V) (h : x ≠ k) :
    upd m k a x = m x := by
  simp [upd, h]

/-! ## Tarjan preprocessing (class `TarjanPreprocessing`) -/

/-- The mutable state of a `TarjanPreprocessing` object:
`index`, `stack`, `indices`, `lowlink`, `on_stack`, `sccs`.
The stack is kept with its top as the list head. -/
structure TState where
  idx : Nat
  stk : List V
  indices : V → Option Nat
  lowlink : V → Option Nat
  onstk : V → Bool
  sccs : List (List V)

def initT : TState :=
  { idx := 0, stk := [], indices := fun _ => none, lowlink := fun _ => none,
    onstk := fun _ => false, sccs := [] }

/-- The `while True: w = stack.pop(); on_stack.remove(w); scc.append(w);
if w == v: break` loop of `_strongconnect`.  Returns the remaining stack, the
collected SCC (`acc ++` popped part) and the updated `on_stack`;
`none` models the `IndexError` of popping an empty stack. -/
def popLoop (v : V) : List V → (V → Bool) → List V → Option (List V × List V × (V → Bool))
  | [], _, _ => none
  | w :: rest, os, acc =>
      if w = v then some (rest, acc ++ [w], upd os w false)
      else popLoop v rest (upd os w false) (acc ++ [w])

/-- The `for w in self.graph.get(v, [])` loop body of `_strongconnect`,
parametrised by the recursive call `rec` (fuel threading happens in
`strongconnect`).  A `none` from a `lowlink`/`indices` read models a Python
`KeyError`. -/
def scLoop (rec : V → TState → Option TState) (v : V) :
    List V → TState → Option TState
  | [], s => some s
  | w :: ws, s =>
      if (s.indices w).isNone then
        match rec w s with
        | none => none
        | some s' =>
            match s'.lowlink v, s'.lowlink w with
            | some a, some b =>
                scLoop rec v ws { s' with lowlink := upd s'.lowlink v (some (min a b)) }
            | _, _ => none
      else if s.onstk w then
        match s.lowlink v, s.indices w with
        | some a, some b =>
            scLoop rec v ws { s with lowlink := upd s.lowlink v (some (min a b)) }
        | _, _ => none
      else scLoop rec v ws s

/-- `TarjanPreprocessing._strongconnect`, with fuel bounding recursion depth. -/
def strongconnect (g : Graph) : Nat → V → TState → Option TState
  | 0, _, _ => none
  | fuel + 1, v, s =>
      let s1 : TState :=
        { s with indices := upd s.indices v (some s.idx),
                 lowlink := upd s.lowlink v (some s.idx),
                 idx := s.idx + 1,
                 stk := v :: s.stk,
                 onstk := upd s.onstk v true }
      match scLoop (strongconnect g fuel) v (succs g v) s1 with
      | none => none
      | some s2 =>
          if s2.lowlink v = s2.indices v then
            match popLoop v s2.stk s2.onstk [] with
            | none => none
            | some (rest, scc, os) =>
                some { s2 with stk := rest, onstk := os, sccs := s2.sccs ++ [scc] }
          else some s2

/-- The `for node in self.graph: if node not in self.indices: ...` loop of
`get_sccs`. -/
def getSccsLoop (g : Graph) (fuel : Nat) : List V → TState → Option TState
  | [], s => some s
  | v :: vs, s =>
      if (s.indices v).isNone then
        match strongconnect g fuel v s with
        | none => none
        | some s' => getSccsLoop g fuel vs s'
      else getSccsLoop g fuel vs s

/-- `TarjanPreprocessing.get_sccs`. -/
def get_sccs (g : Graph) (fuel : Nat) : Option (List (List V)) :=
  (getSccsLoop g fuel (keys g) initT).map TState.sccs

/-! ## Szwarcfiter–Lauer search (class `SzwarcfiterLauer`, week-2 variant) -/

/-- The mutable state of a `SzwarcfiterLauer` object: `nodes`, `N`, `A`, `B`,
`mark`, `reach`, `position`, `stack`, `all_cycles`.  The stack keeps the
Python list orientation: index 0 is the bottom, pushes append at the end. -/
structure SLState where
  nodes : List V
  n : Nat
  A : V → List V
  B : V → List V
  mark : V → Bool
  reach : V → Bool
  position : V → Nat
  stk : List V
  cycles : List (List V)

/-- The constructor's adjacency build:
`for u in nodes: for v in graph.get(u, []): if v in nodes: A[u].append(v)`. -/
def buildA (g : Graph) (ns : List V) : V → List V :=
  ns.foldl (fun A u => upd A u (A u ++ (succs g u).filter (fun w => ns.contains w)))
    (fun _ => [])

/-- `SzwarcfiterLauer.__init__(graph, nodes_subset)`. -/
def initSL (g : Graph) (ns : List V) : SLState :=
  { nodes := ns, n := ns.length, A := buildA g ns, B := fun _ => [],
    mark := fun _ => false, reach := fun _ => false, position := fun _ => 0,
    stk := [], cycles := [] }

/-- `SzwarcfiterLauer._nocycle(x, y)`: append `x` to `B[y]` and remove the
first occurrence of `y` from `A[x]` when present. -/
def nocycle (x y : V) (s : SLState) : SLState :=
  let s1 : SLState := { s with B := upd s.B y (s.B y ++ [x]) }
  if y ∈ s1.A x then { s1 with A := upd s1.A x ((s1.A x).erase y) } else s1

/-- The `for y in list(self.B[x])` loop of `_unmark`, parametrised by the
recursive call. -/
def unmarkLoop (rec : V → SLState → Option SLState) (x : V) :
    List V → SLState → Option SLState
  | [], s => some s
  | y :: ys, s =>
      let s1 : SLState := { s with A := upd s.A y (s.A y ++ [x]) }
      if s1.mark y then
        match rec y s1 with
        | none => none
        | some s2 => unmarkLoop rec x ys s2
      else unmarkLoop rec x ys s1

/-- `SzwarcfiterLauer._unmark(x)`, with fuel bounding recursion depth. -/
def unmark : Nat → V → SLState → Option SLState
  | 0, _, _ => none
  | fuel + 1, x, s =>
      let s1 : SLState := { s with mark := upd s.mark x false }
      match unmarkLoop (unmark fuel) x (s1.B x) s1 with
      | none => none
      | some s2 => some { s2 with B := upd s2.B x [] }

/-- The `for w in list(self.A.get(v, []))` loop of `cycle`, parametrised by the
recursive call.  Carries the local flag `f`. -/
def cycleLoop (rec : V → Nat → SLState → Option (Bool × SLState)) (v : V) (q : Nat) :
    List V → Bool → SLState → Option (Bool × SLState)
  | [], f, s => some (f, s)
  | w :: ws, f, s =>
      if w ∈ s.A v then
        if s.mark w = false then
          match rec w q s with
          | none => none
          | some (fw, s') =>
              if fw then cycleLoop rec v q ws true s'
              else cycleLoop rec v q ws f (nocycle v w s')
        else if s.position w ≤ q then
          let idx := s.position w - 1
          cycleLoop rec v q ws true
            { s with cycles := s.cycles ++ [s.stk.drop idx ++ [w]] }
        else cycleLoop rec v q ws f (nocycle v w s)
      else cycleLoop rec v q ws f s

/-- `SzwarcfiterLauer.cycle(v, q)`, with fuel bounding recursion depth. -/
def cycle : Nat → V → Nat → SLState → Option (Bool × SLState)
  | 0, _, _, _ => none
  | fuel + 1, v, q, s =>
      let s1 : SLState := { s with mark := upd s.mark v true, stk := s.stk ++ [v] }
      let t := s1.stk.length
      let s2 : SLState := { s1 with position := upd s1.position v t }
      let q' := if s2.reach v then q else t
      match cycleLoop (cycle fuel) v q' (s2.A v) false s2 with
      | none => none
      | some (f, s3) =>
          let s4 : SLState := { s3 with stk := s3.stk.dropLast }
          match (if f then unmark fuel v s4 else some s4) with
          | none => none
          | some s5 =>
              some (f, { s5 with reach := upd s5.reach v true,
                                 position := upd s5.position v (s5.n + 1) })

/-- In-degree within the SCC, computed from the initial working adjacency
(`for u in nodes: for v in A[u]: indegrees[v] += 1`). -/
def indeg (s : SLState) (v : V) : Nat :=
  (s.nodes.map (fun u => (s.A u).count v)).sum

/-- One insertion step of Python's stable descending sort
(`sorted(nodes, key=indegrees, reverse=True)`): `u` goes after every element
whose key is `≥` its own. -/
def insDesc (key : V → Nat) (u : V) : List V → List V
  | [] => [u]
  | x :: xs => if key x < key u then u :: x :: xs else x :: insDesc key u xs

/-- Python's stable descending sort by `key`. -/
def sortDesc (key : V → Nat) (ns : List V) : List V :=
  ns.foldl (fun acc u => insDesc key u acc) []

/-- The `for s in start_candidates: if not self.reach[s]: self.cycle(s, 0)`
loop of `run`. -/
def runLoop (fuel : Nat) : List V → SLState → Option SLState
  | [], s => some s
  | c :: cs, s =>
      if s.reach c then runLoop fuel cs s
      else
        match cycle fuel c 0 s with
        | none => none
        | some (_, s') => runLoop fuel cs s'

/-- `SzwarcfiterLauer(graph, nodes_subset).run()`. -/
def runSL (g : Graph) (ns : List V) (fuel : Nat) : Option (List (List V)) :=
  let s := initSL g ns
  (runLoop fuel (sortDesc (indeg s) s.nodes) s).map SLState.cycles

/-! ## The per-graph pipeline of `run_all_graphs_from_toml` -/

/-- The per-SCC step: skip a singleton SCC without a self-loop, otherwise run
the Szwarcfiter–Lauer search on the SCC and extend the accumulated list.
(`get_sccs` never yields `[]`; that case is mapped to a skip.) -/
def processScc (g : Graph) (fuel : Nat) (acc : List (List V)) (scc : List V) :
    Option (List (List V)) :=
  match scc with
  | [] => some acc
  | node :: rest =>
      if (node :: rest).length < 2 && !((succs g node).contains node) then some acc
      else (runSL g (node :: rest) fuel).map (fun cs => acc ++ cs)

/-- The whole per-graph computation of `run_all_graphs_from_toml`:
Tarjan SCCs, then the cycle search SCC by SCC, results concatenated. -/
def pipeline (g : Graph) (fuel : Nat) : Option (List (List V)) :=
  match get_sccs g fuel with
  | none => none
  | some sccs => sccs.foldlM (processScc g fuel) []

/-- `TestAlgorithmOutput.normalize_cycle` from week2/testing/testing.py:
drop the closing vertex and rotate the smallest vertex to the front. -/
def normalize_cycle (c : List V) : List V :=
  let path := c.dropLast
  match path with
  | [] => []
  | p :: _ =>
      let m := path.foldl min p
      let i := path.indexOf m
      path.drop i ++ path.take i

end TRSL

namespace TRSL

/-! ## Concrete fixtures -/

/-- Fixture B of the test suite (`testing.py`), with numeric vertex tokens. -/
def fixtureB : Graph := [(1, [2]), (2, [1, 3]), (3, [4, 5]), (4, [5]), (5, [3, 6]), (6, [])]

/-- A graph whose successor list for vertex 1 holds the duplicate entry 2. -/
def dupGraph : Graph := [(1, [2, 2]), (2, [1])]

/-- A single vertex with a duplicated self-loop entry. -/
def dupLoopGraph : Graph := [(7, [7, 7])]

/-- C2 (code evaluation at the failing input): on the duplicate-edge graph
`{1: [2, 2], 2: [1]}` the pipeline emits the cycle `[2, 1, 2]` twice, so the
map from returned cycles to rotation classes is not injective, although the
program reports its output as "Total Unique Elementary Cycles". -/
theorem claim_C2_dup_emission :
    pipeline dupGraph 10 = some [[2, 1, 2], [2, 1, 2]] := by rfl

/-- C3: the full pipeline on fixture B returns cycles whose set of
rotation-normalized classes is exactly {(1,2), (3,4,5), (3,5)}: every
normalized returned cycle is one of the three classes and every class is
realized (no missing and no extra classes). -/
theorem claim_C3_fixtureB :
    ∃ cs, pipeline fixtureB 30 = some cs ∧
      cs.map normalize_cycle ⊆ [[1, 2], [3, 4, 5], [3, 5]] ∧
      [[1, 2], [3, 4, 5], [3, 5]] ⊆ cs.map normalize_cycle :=
  ⟨[[5, 3, 4, 5], [5, 3, 5], [2, 1, 2]], by rfl, by decide, by decide⟩

/-- C5 counterexample: a single-vertex SCC whose successor list holds the
self-loop entry twice yields the cycle `[7, 7]` twice, not exactly once. -/
theorem claim_C5_counterexample :
    pipeline dupLoopGraph 10 = some [[7, 7], [7, 7]] := by rfl

end TRSL

namespace TRSL

/-! ## C5: singleton SCCs -/

theorem contains_singleton (v w : V) : [v].contains w = (w == v) := by
  by_cases h : w = v <;> simp [List.contains_cons, h]

theorem buildA_singleton (g : Graph) (v : V) (h : (succs g v).count v = 1) :
    buildA g [v] = upd (fun _ => []) v [v] := by
  have hp : (fun w => [v].contains w) = (fun w => w == v) := by
    funext w; exact contains_singleton v w
  simp only [buildA, List.foldl_cons, List.foldl_nil, hp]
  rw [List.filter_beq, h]
  rfl

/-- The Szwarcfiter–Lauer run on the singleton vertex set `[v]` when the
successor list of `v` holds `v` exactly once: one cycle `[v, v]` is returned. -/
theorem runSL_singleton (g : Graph) (v : V) (k : Nat)
    (h : (succs g v).count v = 1) :
    runSL g [v] (k + 2) = some [[v, v]] := by
  simp only [runSL, initSL, buildA_singleton g v h]
  simp only [indeg, sortDesc, insDesc, List.foldl_cons, List.foldl_nil, List.map_cons,
    List.map_nil, upd_same, List.sum_cons, List.sum_nil]
  simp only [runLoop, cycle, cycleLoop, unmark, unmarkLoop, upd_same]
  simp [unmarkLoop, nocycle, upd]

end TRSL

namespace TRSL

/-- C5 (amended): a single-vertex SCC is submitted to the cycle search iff the
vertex has a self-loop entry (otherwise it contributes nothing), and when the
successor list contains the vertex exactly once the search returns exactly the
one cycle `[v, v]`. -/
theorem claim_C5_singleton_scc (g : Graph) (v : V) (fuel k : Nat) (acc : List (List V)) :
    (processScc g fuel acc [v] =
      if (succs g v).contains v then (runSL g [v] fuel).map (fun cs => acc ++ cs)
      else some acc) ∧
    ((succs g v).count v = 1 → runSL g [v] (k + 2) = some [[v, v]]) := by
  constructor
  · by_cases h : (succs g v).contains v <;> simp [processScc, h]
  · exact runSL_singleton g v k

/-- Witness for C5 at the graph `{7: [7]}`: the singleton SCC `[7]` is
submitted and yields exactly `[[7, 7]]`. -/
theorem claim_C5_singleton_scc_witness :
    (processScc [(7, [7])] 2 [] [7] =
      if (succs [(7, [7])] 7).contains 7
      then (runSL [(7, [7])] [7] 2).map (fun cs => [] ++ cs)
      else some []) ∧
    runSL [(7, [7])] [7] 2 = some [[7, 7]] :=
  ⟨(claim_C5_singleton_scc [(7, [7])] 7 2 0 []).1,
   (claim_C5_singleton_scc [(7, [7])] 7 2 0 []).2 (by decide)⟩

end TRSL

namespace TRSL

/-! ## C9: stack balance -/

theorem nocycle_stk (x y : V) (s : SLState) : (nocycle x y s).stk = s.stk := by
  by_cases h : y ∈ s.A x <;> simp [nocycle, h]

theorem unmarkLoop_stk (rec : V → SLState → Option SLState)
    (hrec : ∀ y t t', rec y t = some t' → t'.stk = t.stk) (x : V) :
    ∀ ys s s', unmarkLoop rec x ys s = some s' → s'.stk = s.stk := by
  intro ys
  induction ys with
  | nil => intro s s' h; simp only [unmarkLoop] at h; cases h; rfl
  | cons y ys ih =>
      intro s s' h
      simp only [unmarkLoop] at h
      split at h
      · split at h
        · exact Option.noConfusion h
        · next s2 heq =>
            exact (ih _ _ h).trans
              (hrec y { s with A := upd s.A y (s.A y ++ [x]) } s2 heq)
      · exact (ih _ _ h).trans rfl

theorem unmark_stk : ∀ fuel x s s', unmark fuel x s = some s' → s'.stk = s.stk := by
  intro fuel
  induction fuel with
  | zero => intro x s s' h; exact Option.noConfusion h
  | succ fuel ih =>
      intro x s s' h
      simp only [unmark] at h
      split at h
      · exact Option.noConfusion h
      · next s2 heq =>
          cases h
          exact unmarkLoop_stk (unmark fuel) ih x (s.B x)
            { s with mark := upd s.mark x false } s2 heq

theorem cycleLoop_stk (rec : V → Nat → SLState → Option (Bool × SLState))
    (hrec : ∀ w q t r, rec w q t = some r → r.2.stk = t.stk) (v : V) (q : Nat) :
    ∀ ws f s r, cycleLoop rec v q ws f s = some r → r.2.stk = s.stk := by
  intro ws
  induction ws with
  | nil => intro f s r h; simp only [cycleLoop] at h; cases h; rfl
  | cons w ws ih =>
      intro f s r h
      simp only [cycleLoop] at h
      split at h
      · split at h
        · split at h
          · exact Option.noConfusion h
          · next fw s' heq =>
              split at h
              · exact (ih _ _ _ h).trans (hrec _ _ _ _ heq)
              · exact (ih _ _ _ h).trans
                  ((nocycle_stk v w s').trans (hrec _ _ _ _ heq))
        · split at h
          · exact (ih _ _ _ h).trans rfl
          · exact (ih _ _ _ h).trans (nocycle_stk v w s)
      · exact ih _ _ _ h

theorem cycle_stk : ∀ fuel v q s r, cycle fuel v q s = some r → r.2.stk = s.stk := by
  intro fuel
  induction fuel with
  | zero => intro v q s r h; exact Option.noConfusion h
  | succ fuel ih =>
      intro v q s r h
      simp only [cycle] at h
      split at h
      · exact Option.noConfusion h
      · next f s3 heq =>
          have h1 : s3.stk = s.stk ++ [v] :=
            cycleLoop_stk (cycle fuel) ih v _ _ _ _ _ heq
          split at h
          · exact Option.noConfusion h
          · next s5 heq5 =>
              have h2 : s5.stk = s3.stk.dropLast := by
                split at heq5
                · exact unmark_stk fuel v _ s5 heq5
                · cases heq5; rfl
              cases h
              simp only [h2, h1, List.dropLast_concat]

theorem runLoop_stk : ∀ fuel cs s s', runLoop fuel cs s = some s' → s'.stk = s.stk := by
  intro fuel cs
  induction cs with
  | nil => intro s s' h; simp only [runLoop] at h; cases h; rfl
  | cons c cs ih =>
      intro s s' h
      simp only [runLoop] at h
      split at h
      · exact ih s s' h
      · split at h
        · exact Option.noConfusion h
        · next b p heq =>
            exact (ih _ _ h).trans (cycle_stk fuel c 0 s (b, p) heq)

/-- C9: every completed `cycle(v, q)` call leaves the path stack exactly as it
found it (push on entry, one pop before returning, nested calls balanced), and
consequently the stack stays empty after each top-level call made by `run`. -/
theorem claim_C9_stack_balance :
    (∀ fuel v q s r, cycle fuel v q s = some r → r.2.stk = s.stk) ∧
    (∀ fuel cs s s', s.stk = [] → runLoop fuel cs s = some s' → s'.stk = []) :=
  ⟨cycle_stk, fun fuel cs s s' h0 h => (runLoop_stk fuel cs s s' h).trans h0⟩

/-- Witness for C9: the concrete call `cycle 3 7 0` on the singleton self-loop
state returns and leaves the (initially empty) stack empty. -/
theorem claim_C9_stack_balance_witness :
    (cycle 3 7 0 (initSL [(7, [7])] [7])).map (fun r => r.2.stk) = some [] := by
  have hs : (cycle 3 7 0 (initSL [(7, [7])] [7])).isSome = true := by decide
  obtain ⟨r, hr⟩ := Option.isSome_iff_exists.mp hs
  rw [hr, Option.map_some']
  exact congrArg some (claim_C9_stack_balance.1 3 7 0 (initSL [(7, [7])] [7]) r hr)

end TRSL

namespace TRSL

/-! ## C10: the SCC decomposition partitions the touched vertices -/

/-- The index assigned to a vertex (0 when unindexed). -/
def idxOfT (s : TState) (x : V) : Nat := (s.indices x).getD 0

/-- The state invariant of a `TarjanPreprocessing` object, relating the stack,
`on_stack`, `indices`, `lowlink` and the emitted SCCs. -/
structure TInv (g : Graph) (s : TState) : Prop where
  stk_nodup : s.stk.Nodup
  stk_indexed : ∀ v ∈ s.stk, (s.indices v).isSome
  onstk_iff : ∀ v, s.onstk v = true ↔ v ∈ s.stk
  indexed_iff : ∀ v, (s.indices v).isSome ↔ v ∈ s.stk ∨ v ∈ s.sccs.flatten
  stk_scc_disj : ∀ v ∈ s.stk, v ∉ s.sccs.flatten
  sccs_nodup : ∀ c ∈ s.sccs, c.Nodup
  sccs_disj : s.sccs.Pairwise (fun a b => ∀ x ∈ a, x ∉ b)
  idx_bound : ∀ v i, s.indices v = some i → i < s.idx
  stk_sorted : s.stk.Pairwise (fun a b => idxOfT s b < idxOfT s a)
  lowlink_le : ∀ v i, s.indices v = some i → ∃ l, s.lowlink v = some l ∧ l ≤ i
  indexed_verts : ∀ v, (s.indices v).isSome → v ∈ verts g

/-- Monotone facts relating a Tarjan state to any later state of the run. -/
structure TStep (g : Graph) (s s' : TState) : Prop where
  idx_le : s.idx ≤ s'.idx
  indices_mono : ∀ x j, s.indices x = some j → s'.indices x = some j
  fresh_ge : ∀ x j, s.indices x = none → s'.indices x = some j → s.idx ≤ j
  sccs_ext : ∃ L, s'.sccs = s.sccs ++ L
  stk_suffix : s.stk <:+ s'.stk
  stk_new : ∀ x ∈ s'.stk, x ∈ s.stk ∨ (s.indices x = none ∧ (s'.indices x).isSome)

theorem TStep.refl (g : Graph) (s : TState) : TStep g s s := by
  refine ⟨le_refl _, fun _ _ h => h, ?_, ⟨[], by simp⟩, List.suffix_refl _,
    fun x hx => Or.inl hx⟩
  intro x j h h'; rw [h] at h'; exact Option.noConfusion h'

theorem TStep.trans {g : Graph} {s t u : TState} (h1 : TStep g s t) (h2 : TStep g t u) :
    TStep g s u := by
  refine ⟨le_trans h1.idx_le h2.idx_le,
    fun x j h => h2.indices_mono x j (h1.indices_mono x j h),
    ?_, ?_, h1.stk_suffix.trans h2.stk_suffix, ?_⟩
  · intro x j hn hs
    cases hm : t.indices x with
    | none => exact h1.idx_le.trans (h2.fresh_ge x j hm hs) |>.trans' (le_refl _)
    | some i =>
        have := h2.indices_mono x i hm
        rw [this] at hs
        cases hs
        exact h1.fresh_ge x j hn hm
  · obtain ⟨L1, hL1⟩ := h1.sccs_ext
    obtain ⟨L2, hL2⟩ := h2.sccs_ext
    exact ⟨L1 ++ L2, by rw [hL2, hL1, List.append_assoc]⟩
  · intro x hx
    rcases h2.stk_new x hx with h | ⟨hn, hs⟩
    · rcases h1.stk_new x h with h' | ⟨hn', hs'⟩
      · exact Or.inl h'
      · obtain ⟨j, hj⟩ := Option.isSome_iff_exists.mp hs'
        exact Or.inr ⟨hn', by simp [h2.indices_mono x j hj]⟩
    · cases hm : s.indices x with
      | none => exact Or.inr ⟨rfl, hs⟩
      | some i => rw [h1.indices_mono x i hm] at hn; exact Option.noConfusion hn

end TRSL

namespace TRSL

theorem lookup_eq_none_of_not_mem_keys {g : Graph} {v : V} (h : v ∉ keys g) :
    g.lookup v = none := by
  induction g with
  | nil => rfl
  | cons p g ih =>
      obtain ⟨k, l⟩ := p
      have hk : v ≠ k := by
        intro he; exact h (by simp [keys, he])
      rw [List.lookup_cons]
      have : (v == k) = false := by simp [hk]
      rw [this]
      exact ih (fun hm => h (by simp [keys] at hm ⊢; exact Or.inr hm))

theorem succs_of_not_key {g : Graph} {v : V} (h : v ∉ keys g) : succs g v = [] := by
  simp [succs, lookup_eq_none_of_not_mem_keys h]

theorem lookup_mem_values {g : Graph} {v : V} {l : List V} (h : g.lookup v = some l) :
    l ∈ g.map Prod.snd := by
  induction g with
  | nil => exact Option.noConfusion h
  | cons p g ih =>
      obtain ⟨k, l'⟩ := p
      rw [List.lookup_cons] at h
      by_cases he : v = k
      · have hb : (v == k) = true := by simp [he]
        rw [hb] at h
        cases h
        simp
      · have hb : (v == k) = false := by simp [he]
        rw [hb] at h
        simp only [List.map_cons, List.mem_cons]
        exact Or.inr (ih h)

theorem succs_subset_verts {g : Graph} {v : V} : ∀ w ∈ succs g v, w ∈ verts g := by
  intro w hw
  simp only [verts, List.mem_append]
  right
  simp only [succs] at hw
  cases hl : g.lookup v with
  | none => rw [hl] at hw; exact absurd hw (by simp)
  | some l =>
      rw [hl] at hw
      simp only [Option.getD_some] at hw
      simp only [allSuccs, List.mem_flatten]
      exact ⟨l, lookup_mem_values hl, hw⟩

end TRSL

namespace TRSL

theorem popLoop_spec (v : V) :
    ∀ (X : List V) (R : List V) (os : V → Bool) (acc : List V), v ∉ X →
      ∃ os', popLoop v (X ++ v :: R) os acc = some (R, acc ++ X ++ [v], os') ∧
        ∀ x, os' x = if x ∈ X ++ [v] then false else os x := by
  intro X
  induction X with
  | nil =>
      intro R os acc _
      refine ⟨upd os v false, by simp [popLoop], ?_⟩
      intro x
      by_cases hx : x = v <;> simp [upd, hx]
  | cons w X ih =>
      intro R os acc hv
      have hwv : w ≠ v := fun he => hv (by simp [he])
      obtain ⟨os', h1, h2⟩ :=
        ih R (upd os w false) (acc ++ [w]) (fun hm => hv (by simp [hm]))
      refine ⟨os', ?_, ?_⟩
      · rw [List.cons_append, popLoop, if_neg hwv, h1]
        simp [List.append_assoc]
      · intro x
        rw [h2 x]
        by_cases hxw : x = w
        · simp [hxw, upd]
        · by_cases hxm : x ∈ X ++ [v] <;>
            simp [hxm, upd, hxw, List.mem_cons, List.mem_append] at *

/-- Number of vertices of the graph still unindexed: the termination measure of
`_strongconnect`. -/
def unCard (g : Graph) (s : TState) : Nat :=
  ((verts g).toFinset.filter (fun x => s.indices x = none)).card

theorem unCard_mono {g : Graph} {s s' : TState} (h : TStep g s s') :
    unCard g s' ≤ unCard g s := by
  apply Finset.card_le_card
  intro x hx
  simp only [Finset.mem_filter] at hx ⊢
  refine ⟨hx.1, ?_⟩
  cases hm : s.indices x with
  | none => rfl
  | some j => rw [h.indices_mono x j hm] at hx; exact absurd hx.2 (by simp)

theorem unCard_push_lt {g : Graph} {s : TState} {v : V} {i : Nat}
    (hv : v ∈ verts g) (hn : s.indices v = none) :
    ∀ s' : TState, s'.indices = upd s.indices v (some i) → unCard g s' < unCard g s := by
  intro s' hs'
  apply Finset.card_lt_card
  constructor
  · intro x hx
    simp only [Finset.mem_filter] at hx ⊢
    refine ⟨hx.1, ?_⟩
    by_cases hxv : x = v
    · rw [hs', hxv] at hx; simp [upd] at hx
    · rw [hs'] at hx
      rw [upd_ne _ _ _ _ hxv] at hx
      exact hx.2
  · intro hsub
    have hvmem : v ∈ (verts g).toFinset.filter (fun x => s.indices x = none) := by
      simp only [Finset.mem_filter, List.mem_toFinset]
      exact ⟨hv, hn⟩
    have := hsub hvmem
    simp only [Finset.mem_filter, hs'] at this
    simp [upd] at this

end TRSL

namespace TRSL

theorem not_mem_stk_of_unindexed {g : Graph} {s : TState} {v : V}
    (inv : TInv g s) (hn : s.indices v = none) : v ∉ s.stk := by
  intro hm
  have := inv.stk_indexed v hm
  rw [hn] at this
  exact absurd this (by simp)

theorem not_mem_flatten_of_unindexed {g : Graph} {s : TState} {v : V}
    (inv : TInv g s) (hn : s.indices v = none) : v ∉ s.sccs.flatten := by
  intro hm
  have := (inv.indexed_iff v).mpr (Or.inr hm)
  rw [hn] at this
  exact absurd this (by simp)

theorem push_inv {g : Graph} {s : TState} {v : V}
    (inv : TInv g s) (hn : s.indices v = none) (hv : v ∈ verts g) :
    TInv g { s with indices := upd s.indices v (some s.idx),
                    lowlink := upd s.lowlink v (some s.idx),
                    idx := s.idx + 1, stk := v :: s.stk,
                    onstk := upd s.onstk v true } := by
  have hvstk : v ∉ s.stk := not_mem_stk_of_unindexed inv hn
  have hvfl : v ∉ s.sccs.flatten := not_mem_flatten_of_unindexed inv hn
  refine ⟨?_, ?_, ?_, ?_, ?_, inv.sccs_nodup, inv.sccs_disj, ?_, ?_, ?_, ?_⟩
  · exact List.nodup_cons.mpr ⟨hvstk, inv.stk_nodup⟩
  · intro x hx
    by_cases hxv : x = v
    · simp [hxv, upd]
    · simp only [upd_ne _ _ _ _ hxv]
      rcases List.mem_cons.mp hx with h | h
      · exact absurd h hxv
      · exact inv.stk_indexed x h
  · intro x
    by_cases hxv : x = v
    · simp [hxv, upd]
    · simp only [upd_ne _ _ _ _ hxv, List.mem_cons]
      rw [inv.onstk_iff x]
      constructor
      · exact Or.inr
      · rintro (h | h)
        · exact absurd h hxv
        · exact h
  · intro x
    by_cases hxv : x = v
    · simp [hxv, upd]
    · simp only [upd_ne _ _ _ _ hxv, List.mem_cons]
      rw [inv.indexed_iff x]
      constructor
      · rintro (h | h)
        · exact Or.inl (Or.inr h)
        · exact Or.inr h
      · rintro ((h | h) | h)
        · exact absurd h hxv
        · exact Or.inl h
        · exact Or.inr h
  · intro x hx
    rcases List.mem_cons.mp hx with h | h
    · exact h ▸ hvfl
    · exact inv.stk_scc_disj x h
  · intro x i hx
    dsimp only at hx ⊢
    by_cases hxv : x = v
    · rw [hxv, upd_same] at hx
      cases hx
      exact Nat.lt_succ_self _
    · rw [upd_ne _ _ _ _ hxv] at hx
      exact Nat.lt_succ_of_lt (inv.idx_bound x i hx)
  · rw [List.pairwise_cons]
    constructor
    · intro x hx
      have hxv : x ≠ v := fun he => hvstk (he ▸ hx)
      show idxOfT _ x < idxOfT _ v
      simp only [idxOfT, upd_same, upd_ne _ _ _ _ hxv]
      obtain ⟨i, hi⟩ := Option.isSome_iff_exists.mp (inv.stk_indexed x hx)
      rw [hi]
      exact inv.idx_bound x i hi
    · refine List.Pairwise.imp_of_mem ?_ inv.stk_sorted
      intro a b ha hb hab
      have hav : a ≠ v := fun he => hvstk (he ▸ ha)
      have hbv : b ≠ v := fun he => hvstk (he ▸ hb)
      show idxOfT _ b < idxOfT _ a
      simpa only [idxOfT, upd_ne _ _ _ _ hav, upd_ne _ _ _ _ hbv] using hab
  · intro x i hx
    dsimp only at hx ⊢
    by_cases hxv : x = v
    · rw [hxv, upd_same] at hx
      cases hx
      exact ⟨s.idx, by simp [hxv, upd], le_refl _⟩
    · rw [upd_ne _ _ _ _ hxv] at hx
      obtain ⟨l, hl, hle⟩ := inv.lowlink_le x i hx
      exact ⟨l, by rw [upd_ne _ _ _ _ hxv]; exact hl, hle⟩
  · intro x hx
    dsimp only at hx
    by_cases hxv : x = v
    · exact hxv ▸ hv
    · rw [upd_ne _ _ _ _ hxv] at hx
      exact inv.indexed_verts x hx

end TRSL

namespace TRSL

theorem pop_inv {g : Graph} {s2 : TState} (inv : TInv g s2) (v : V) (X R : List V)
    (hstk : s2.stk = X ++ v :: R) (os' : V → Bool)
    (hos : ∀ x, os' x = if x ∈ X ++ [v] then false else s2.onstk x) :
    TInv g { s2 with stk := R, onstk := os', sccs := s2.sccs ++ [X ++ [v]] } := by
  have hstk' : s2.stk = (X ++ [v]) ++ R := by
    rw [hstk, List.append_assoc, List.singleton_append]
  have hnd : (X ++ [v]).Nodup ∧ R.Nodup ∧ (X ++ [v]).Disjoint R :=
    List.nodup_append.mp (hstk' ▸ inv.stk_nodup)
  have hsubR : R.Sublist s2.stk := hstk' ▸ List.sublist_append_right _ _
  have hsubXv : (X ++ [v]).Sublist s2.stk := hstk' ▸ List.sublist_append_left _ _
  have hmemstk : ∀ x ∈ X ++ [v], x ∈ s2.stk := fun x hx => hsubXv.mem hx
  have hmemR : ∀ x ∈ R, x ∈ s2.stk := fun x hx => hsubR.mem hx
  have hsplit : ∀ x, x ∈ s2.stk ↔ x ∈ X ++ [v] ∨ x ∈ R := by
    intro x
    rw [hstk']
    simp only [List.mem_append, List.mem_cons, List.mem_singleton]
  refine ⟨hnd.2.1, ?_, ?_, ?_, ?_, ?_, ?_, inv.idx_bound, ?_, inv.lowlink_le,
    inv.indexed_verts⟩
  · intro x hx
    exact inv.stk_indexed x (hmemR x hx)
  · intro x
    dsimp only
    rw [hos x]
    by_cases hx : x ∈ X ++ [v]
    · rw [if_pos hx]
      exact ⟨fun he => absurd he (by simp), fun hxR => (hnd.2.2 hx hxR).elim⟩
    · rw [if_neg hx, inv.onstk_iff x, hsplit x]
      constructor
      · rintro (h | h)
        · exact absurd h hx
        · exact h
      · exact Or.inr
  · intro x
    dsimp only
    rw [inv.indexed_iff x, hsplit x, List.flatten_append]
    simp only [List.flatten_cons, List.flatten_nil, List.append_nil, List.mem_append]
    constructor
    · rintro ((h | h) | h)
      · exact Or.inr (Or.inr h)
      · exact Or.inl h
      · exact Or.inr (Or.inl h)
    · rintro (h | h | h)
      · exact Or.inl (Or.inr h)
      · exact Or.inr h
      · exact Or.inl (Or.inl h)
  · intro x hx
    dsimp only
    rw [List.flatten_append]
    simp only [List.flatten_cons, List.flatten_nil, List.append_nil, List.mem_append]
    rintro (h | h)
    · exact inv.stk_scc_disj x (hmemR x hx) h
    · exact (hnd.2.2 (List.mem_append.mpr h) hx).elim
  · intro c hc
    dsimp only at hc
    rcases List.mem_append.mp hc with h | h
    · exact inv.sccs_nodup c h
    · rw [List.mem_singleton] at h
      exact h ▸ hnd.1
  · dsimp only
    rw [List.pairwise_append]
    refine ⟨inv.sccs_disj, by simp, ?_⟩
    intro a ha b hb x hxa
    rw [List.mem_singleton] at hb
    subst hb
    intro hxb
    have hfl : x ∈ s2.sccs.flatten := List.mem_flatten.mpr ⟨a, ha, hxa⟩
    exact inv.stk_scc_disj x (hmemstk x hxb) hfl
  · exact inv.stk_sorted.sublist hsubR

end TRSL

namespace TRSL

/-- Postcondition of a completed `_strongconnect(v)` call from state `s`. -/
structure SCout (g : Graph) (v : V) (s s' : TState) : Prop where
  inv : TInv g s'
  step : TStep g s s'
  idx_v : s'.indices v = some s.idx
  low_frozen : ∀ x, (s.indices x).isSome → s'.lowlink x = s.lowlink x
  low_bound : ∀ b, b ≤ s.idx → (∀ x ∈ s.stk, b ≤ idxOfT s x) →
    ∀ l, s'.lowlink v = some l → b ≤ l
  pop_done : s'.lowlink v = some s.idx → s'.stk = s.stk
  dangling : ∀ x, s.indices x = none → (s'.indices x).isSome → x ∉ keys g →
    [x] ∈ s'.sccs
  new_closed : ∀ u, s.indices u = none → (s'.indices u).isSome →
    ∀ z ∈ succs g u, (s'.indices z).isSome

/-- Postcondition of the successor loop of `_strongconnect(v)` over the
remaining successors `ws`, from state `s`. -/
structure LOOPout (g : Graph) (v : V) (ws : List V) (s s' : TState) : Prop where
  inv : TInv g s'
  step : TStep g s s'
  low_frozen : ∀ x, x ≠ v → (s.indices x).isSome → s'.lowlink x = s.lowlink x
  low_v_bound : ∀ b, b ≤ s.idx → (∀ x ∈ s.stk, b ≤ idxOfT s x) →
    (∀ l₀, s.lowlink v = some l₀ → b ≤ l₀) → ∀ l, s'.lowlink v = some l → b ≤ l
  processed : ∀ w ∈ ws, (s'.indices w).isSome
  dangling : ∀ x, s.indices x = none → (s'.indices x).isSome → x ∉ keys g →
    [x] ∈ s'.sccs
  new_closed : ∀ u, s.indices u = none → (s'.indices u).isSome →
    ∀ z ∈ succs g u, (s'.indices z).isSome

/-- Overwriting a `lowlink` entry is a monotone step. -/
theorem TStep_set_lowlink (g : Graph) (t : TState) (f : V → Option Nat) :
    TStep g t { t with lowlink := f } :=
  ⟨le_refl _, fun _ _ h => h,
   fun x j h h' => absurd h' (by rw [show ({ t with lowlink := f } : TState).indices = t.indices from rfl, h]; simp),
   ⟨[], by simp⟩, List.suffix_refl _, fun x hx => Or.inl hx⟩

/-- Lowering the `lowlink` entry of an indexed vertex keeps the invariant. -/
theorem TInv_set_lowlink_min {g : Graph} {t : TState} (inv : TInv g t) (v : V) (j a : Nat)
    (hj : t.indices v = some j) (ha : a ≤ j) :
    TInv g { t with lowlink := upd t.lowlink v (some a) } := by
  refine ⟨inv.stk_nodup, inv.stk_indexed, inv.onstk_iff, inv.indexed_iff,
    inv.stk_scc_disj, inv.sccs_nodup, inv.sccs_disj, inv.idx_bound, inv.stk_sorted,
    ?_, inv.indexed_verts⟩
  intro x i hx
  dsimp only at hx ⊢
  by_cases hxv : x = v
  · subst hxv
    rw [hx] at hj
    cases hj
    exact ⟨a, upd_same _ _ _, ha⟩
  · rw [upd_ne _ _ _ _ hxv]
    exact inv.lowlink_le x i hx

end TRSL

namespace TRSL

theorem TStep_push {g : Graph} {s : TState} {v : V} (hn : s.indices v = none) :
    TStep g s { s with indices := upd s.indices v (some s.idx),
                       lowlink := upd s.lowlink v (some s.idx),
                       idx := s.idx + 1, stk := v :: s.stk,
                       onstk := upd s.onstk v true } := by
  refine ⟨Nat.le_succ _, ?_, ?_, ⟨[], by simp⟩, ⟨[v], rfl⟩, ?_⟩
  · intro x j h
    dsimp only
    have hxv : x ≠ v := fun he => by rw [he, hn] at h; exact Option.noConfusion h
    rw [upd_ne _ _ _ _ hxv]
    exact h
  · intro x j h h'
    dsimp only at h'
    by_cases hxv : x = v
    · subst hxv
      rw [upd_same] at h'
      cases h'
      exact le_refl _
    · rw [upd_ne _ _ _ _ hxv, h] at h'
      exact Option.noConfusion h'
  · intro x hx
    dsimp only at hx ⊢
    rcases List.mem_cons.mp hx with he | hm
    · subst he
      exact Or.inr ⟨hn, by simp [upd]⟩
    · exact Or.inl hm

theorem idxOfT_eq {s : TState} {x : V} {i : Nat} (h : s.indices x = some i) :
    idxOfT s x = i := by simp [idxOfT, h]

theorem scLoop_total (g : Graph) (rec : V → TState → Option TState) (B : Nat)
    (hrec : ∀ w t, TInv g t → t.indices w = none → w ∈ verts g → unCard g t < B →
      ∃ t', rec w t = some t' ∧ SCout g w t t') (v : V) :
    ∀ ws s, TInv g s → v ∈ s.stk → (∀ w ∈ ws, w ∈ verts g) → unCard g s < B →
      ∃ s', scLoop rec v ws s = some s' ∧ LOOPout g v ws s s' := by
  intro ws
  induction ws with
  | nil =>
      intro s inv hv hws hc
      refine ⟨s, by simp [scLoop], ?_⟩
      refine ⟨inv, TStep.refl g s, fun x _ _ => rfl, ?_, by simp, ?_, ?_⟩
      · intro b _ _ hinit l hl
        exact hinit l hl
      · intro x hx hx' _
        rw [hx] at hx'
        exact absurd hx' (by simp)
      · intro u hu hu' _ _
        rw [hu] at hu'
        exact absurd hu' (by simp)
  | cons w ws ih =>
      intro s inv hv hws hc
      have hwv : w ∈ verts g := hws w (List.mem_cons_self w ws)
      have hwsT : ∀ u ∈ ws, u ∈ verts g := fun u hu => hws u (List.mem_cons_of_mem w hu)
      obtain ⟨jv, hjv⟩ := Option.isSome_iff_exists.mp (inv.stk_indexed v hv)
      obtain ⟨a, hav, haj⟩ := inv.lowlink_le v jv hjv
      by_cases hw : s.indices w = none
      · obtain ⟨t, hrect, out⟩ := hrec w s inv hw hwv hc
        have htv : t.indices v = some jv := out.step.indices_mono v jv hjv
        have htlv : t.lowlink v = some a := by
          rw [out.low_frozen v (by simp [hjv]), hav]
        obtain ⟨b2, htlw, hb2⟩ := out.inv.lowlink_le w s.idx out.idx_v
        have heq : scLoop rec v (w :: ws) s =
            scLoop rec v ws { t with lowlink := upd t.lowlink v (some (min a b2)) } := by
          simp only [scLoop, hw, Option.isNone_none, if_true, hrect, htlv, htlw]
        have hst' : TStep g s { t with lowlink := upd t.lowlink v (some (min a b2)) } :=
          out.step.trans (TStep_set_lowlink g t _)
        have hinv' : TInv g { t with lowlink := upd t.lowlink v (some (min a b2)) } :=
          TInv_set_lowlink_min out.inv v jv (min a b2) htv
            (le_trans (min_le_left _ _) haj)
        have hv' : v ∈ ({ t with lowlink := upd t.lowlink v (some (min a b2)) } : TState).stk :=
          out.step.stk_suffix.subset hv
        have hc' : unCard g { t with lowlink := upd t.lowlink v (some (min a b2)) } < B :=
          lt_of_le_of_lt (unCard_mono hst') hc
        obtain ⟨s', hloop, lout⟩ := ih _ hinv' hv' hwsT hc'
        refine ⟨s', by rw [heq]; exact hloop, ?_⟩
        refine ⟨lout.inv, hst'.trans lout.step, ?_, ?_, ?_, ?_, ?_⟩
        · intro x hxv hxs
          obtain ⟨i, hi⟩ := Option.isSome_iff_exists.mp hxs
          have hti : t.indices x = some i := out.step.indices_mono x i hi
          rw [lout.low_frozen x hxv (by simp [hti])]
          dsimp only
          rw [upd_ne _ _ _ _ hxv, out.low_frozen x hxs]
        · intro b hb hbstk hbinit l hl
          refine lout.low_v_bound b ?_ ?_ ?_ l hl
          · exact hb.trans out.step.idx_le
          · intro x hx
            dsimp only at hx
            rcases out.step.stk_new x hx with hxs | ⟨hxn, hxsome⟩
            · obtain ⟨i, hi⟩ := Option.isSome_iff_exists.mp (inv.stk_indexed x hxs)
              have hbi := hbstk x hxs
              rw [idxOfT_eq hi] at hbi
              show b ≤ (t.indices x).getD 0
              rw [out.step.indices_mono x i hi, Option.getD_some]
              exact hbi
            · obtain ⟨j, hj⟩ := Option.isSome_iff_exists.mp hxsome
              show b ≤ (t.indices x).getD 0
              rw [hj, Option.getD_some]
              exact hb.trans (out.step.fresh_ge x j hxn hj)
          · intro l₀ hl₀
            dsimp only at hl₀
            rw [upd_same] at hl₀
            cases hl₀
            exact le_min (hbinit a hav) (out.low_bound b hb hbstk b2 htlw)
        · intro u hu
          rcases List.mem_cons.mp hu with he | hm
          · subst he
            obtain ⟨j, hj⟩ := Option.isSome_iff_exists.mp (by simp [out.idx_v] :
              (t.indices u).isSome)
            simp [lout.step.indices_mono u j hj]
          · exact lout.processed u hm
        · intro x hxn hxs hxk
          cases hm : t.indices x with
          | none => exact lout.dangling x hm hxs hxk
          | some i =>
              have hx : [x] ∈ t.sccs := out.dangling x hxn (by simp [hm]) hxk
              obtain ⟨L, hL⟩ := lout.step.sccs_ext
              rw [hL]
              exact List.mem_append_left _ hx
        · intro u hun hus z hz
          cases hm : t.indices u with
          | none => exact lout.new_closed u hm hus z hz
          | some i =>
              have h3 := out.new_closed u hun (by simp [hm]) z hz
              obtain ⟨j, hj⟩ := Option.isSome_iff_exists.mp h3
              simp [lout.step.indices_mono z j hj]
      · have hw' : (s.indices w).isNone = false := by
          cases hm : s.indices w with
          | none => exact absurd hm hw
          | some i => rfl
        by_cases hos : s.onstk w = true
        · obtain ⟨iw, hiw⟩ :=
            Option.isSome_iff_exists.mp (inv.stk_indexed w ((inv.onstk_iff w).mp hos))
          have heq : scLoop rec v (w :: ws) s =
              scLoop rec v ws { s with lowlink := upd s.lowlink v (some (min a iw)) } := by
            simp only [scLoop, hiw, Option.isNone_some, Bool.false_eq_true, if_false,
              hos, if_true, hav]
          have hst' : TStep g s { s with lowlink := upd s.lowlink v (some (min a iw)) } :=
            TStep_set_lowlink g s _
          have hinv' : TInv g { s with lowlink := upd s.lowlink v (some (min a iw)) } :=
            TInv_set_lowlink_min inv v jv (min a iw) hjv (le_trans (min_le_left _ _) haj)
          obtain ⟨s', hloop, lout⟩ :=
            ih _ hinv' hv hwsT (lt_of_le_of_lt (unCard_mono hst') hc)
          refine ⟨s', by rw [heq]; exact hloop, ?_⟩
          refine ⟨lout.inv, hst'.trans lout.step, ?_, ?_, ?_, ?_, ?_⟩
          · intro x hxv hxs
            rw [lout.low_frozen x hxv hxs]
            dsimp only
            rw [upd_ne _ _ _ _ hxv]
          · intro b hb hbstk hbinit l hl
            refine lout.low_v_bound b hb hbstk ?_ l hl
            intro l₀ hl₀
            dsimp only at hl₀
            rw [upd_same] at hl₀
            cases hl₀
            refine le_min (hbinit a hav) ?_
            have := hbstk w ((inv.onstk_iff w).mp hos)
            rw [idxOfT_eq hiw] at this
            exact this
          · intro u hu
            rcases List.mem_cons.mp hu with he | hm
            · subst he
              simp [lout.step.indices_mono u iw hiw]
            · exact lout.processed u hm
          · intro x hxn hxs hxk
            exact lout.dangling x hxn hxs hxk
          · intro u hun hus z hz
            exact lout.new_closed u hun hus z hz
        · have hos' : s.onstk w = false := by
            cases hb : s.onstk w with
            | false => rfl
            | true => exact absurd hb hos
          have heq : scLoop rec v (w :: ws) s = scLoop rec v ws s := by
            simp only [scLoop, hw', Bool.false_eq_true, if_false, hos',
              Bool.false_eq_true, if_false]
          obtain ⟨s', hloop, lout⟩ := ih s inv hv hwsT hc
          refine ⟨s', by rw [heq]; exact hloop, ?_⟩
          refine ⟨lout.inv, lout.step, lout.low_frozen, lout.low_v_bound, ?_,
            lout.dangling, lout.new_closed⟩
          intro u hu
          rcases List.mem_cons.mp hu with he | hm
          · subst he
            obtain ⟨i, hi⟩ := Option.isSome_iff_exists.mp (Option.ne_none_iff_isSome.mp hw)
            simp [lout.step.indices_mono u i hi]
          · exact lout.processed u hm

end TRSL

namespace TRSL

/-- The entry state update of `_strongconnect(v)`: assign index and lowlink,
advance the counter, push `v`, set `on_stack`. -/
def pushT (s : TState) (v : V) : TState :=
  { s with indices := upd s.indices v (some s.idx),
           lowlink := upd s.lowlink v (some s.idx),
           idx := s.idx + 1,
           stk := v :: s.stk,
           onstk := upd s.onstk v true }

theorem strongconnect_succ (g : Graph) (fuel : Nat) (v : V) (s : TState) :
    strongconnect g (fuel + 1) v s =
      match scLoop (strongconnect g fuel) v (succs g v) (pushT s v) with
      | none => none
      | some s2 =>
          if s2.lowlink v = s2.indices v then
            match popLoop v s2.stk s2.onstk [] with
            | none => none
            | some (rest, scc, os) =>
                some { s2 with stk := rest, onstk := os, sccs := s2.sccs ++ [scc] }
          else some s2 := rfl

theorem strongconnect_total (g : Graph) :
    ∀ fuel v s, TInv g s → s.indices v = none → v ∈ verts g → unCard g s < fuel →
      ∃ s', strongconnect g fuel v s = some s' ∧ SCout g v s s' := by
  intro fuel
  induction fuel with
  | zero => intro v s _ _ _ hc; exact absurd hc (Nat.not_lt_zero _)
  | succ fuel ih =>
      intro v s inv hn hvv hc
      have hstep1 : TStep g s (pushT s v) := TStep_push hn
      have hinv1 : TInv g (pushT s v) := push_inv inv hn hvv
      have hvstk : v ∉ s.stk := not_mem_stk_of_unindexed inv hn
      have hidx1 : (pushT s v).indices v = some s.idx := upd_same _ _ _
      have hc1 : unCard g (pushT s v) < fuel := by
        have hlt : unCard g (pushT s v) < unCard g s :=
          unCard_push_lt hvv hn (pushT s v) rfl
        omega
      obtain ⟨s2, hloop, lout⟩ :=
        scLoop_total g (strongconnect g fuel) fuel ih v (succs g v) (pushT s v)
          hinv1 (List.mem_cons_self v s.stk) (fun w hw => succs_subset_verts w hw) hc1
      have hidx2 : s2.indices v = some s.idx := lout.step.indices_mono v s.idx hidx1
      obtain ⟨l2, hl2, hl2le⟩ := lout.inv.lowlink_le v s.idx hidx2
      -- shared pieces
      have hstep2 : TStep g s s2 := hstep1.trans lout.step
      have hlowfr : ∀ x, (s.indices x).isSome → s2.lowlink x = s.lowlink x := by
        intro x hxs
        have hxv : x ≠ v := by
          intro he
          rw [he, hn] at hxs
          exact absurd hxs (by simp)
        obtain ⟨i, hi⟩ := Option.isSome_iff_exists.mp hxs
        have h1 : (pushT s v).indices x = some i := by
          show upd s.indices v (some s.idx) x = some i
          rw [upd_ne _ _ _ _ hxv]
          exact hi
        rw [lout.low_frozen x hxv (by simp [h1])]
        show upd s.lowlink v (some s.idx) x = s.lowlink x
        rw [upd_ne _ _ _ _ hxv]
      have hlowbd : ∀ b, b ≤ s.idx → (∀ x ∈ s.stk, b ≤ idxOfT s x) →
          ∀ l, s2.lowlink v = some l → b ≤ l := by
        intro b hb hbstk l hl
        refine lout.low_v_bound b (hb.trans (Nat.le_succ _)) ?_ ?_ l hl
        · intro x hx
          rcases List.mem_cons.mp hx with he | hm
          · subst he
            show b ≤ ((pushT s x).indices x).getD 0
            rw [hidx1, Option.getD_some]
            exact hb
          · have hxv : x ≠ v := fun he => hvstk (he ▸ hm)
            have hbi := hbstk x hm
            show b ≤ ((pushT s v).indices x).getD 0
            show b ≤ (upd s.indices v (some s.idx) x).getD 0
            rw [upd_ne _ _ _ _ hxv]
            exact hbi
        · intro l₀ hl₀
          have : (pushT s v).lowlink v = some s.idx := upd_same _ _ _
          rw [this] at hl₀
          cases hl₀
          exact hb
      have hnewcl : ∀ u, s.indices u = none → (s2.indices u).isSome →
          ∀ z ∈ succs g u, (s2.indices z).isSome := by
        intro u hun hus z hz
        by_cases huv : u = v
        · subst huv
          exact lout.processed z hz
        · have h1 : (pushT s v).indices u = none := by
            show upd s.indices v (some s.idx) u = none
            rw [upd_ne _ _ _ _ huv]
            exact hun
          exact lout.new_closed u h1 hus z hz
      by_cases hpop : l2 = s.idx
      · -- the SCC rooted at v is popped
        subst hpop
        have hcond : s2.lowlink v = s2.indices v := by rw [hl2, hidx2]
        obtain ⟨X, hX0⟩ := lout.step.stk_suffix
        have hX : X ++ v :: s.stk = s2.stk := hX0
        have hvX : v ∉ X := by
          intro hmem
          have hnd := lout.inv.stk_nodup
          rw [← hX] at hnd
          have hd := (List.nodup_append.mp hnd).2.2
          exact hd hmem (List.mem_cons_self v s.stk)
        obtain ⟨os', hpl, hos⟩ := popLoop_spec v X s.stk s2.onstk [] hvX
        refine ⟨{ s2 with stk := s.stk, onstk := os', sccs := s2.sccs ++ [X ++ [v]] },
          ?_, ?_⟩
        · rw [strongconnect_succ, hloop]
          dsimp only
          rw [if_pos hcond, ← hX, hpl]
          simp only [List.nil_append]
        · refine ⟨pop_inv lout.inv v X s.stk hX.symm os' hos, ?_, hidx2, hlowfr,
            hlowbd, fun _ => rfl, ?_, hnewcl⟩
          · obtain ⟨L, hL⟩ := hstep2.sccs_ext
            refine ⟨hstep2.idx_le, hstep2.indices_mono, hstep2.fresh_ge,
              ⟨L ++ [X ++ [v]], ?_⟩, ?_, ?_⟩
            · show s2.sccs ++ [X ++ [v]] = s.sccs ++ (L ++ [X ++ [v]])
              rw [hL, List.append_assoc]
            · exact List.suffix_refl s.stk
            · intro x hx
              exact Or.inl hx
          · intro x hxn hxs hxk
            by_cases hxv : x = v
            · subst hxv
              have hsx : succs g x = [] := succs_of_not_key hxk
              have hs2 : s2 = pushT s x := by
                have hh := hloop
                rw [hsx] at hh
                simp only [scLoop] at hh
                exact (Option.some.inj hh).symm
              have hXnil : X = [] := by
                have h1 : X ++ x :: s.stk = x :: s.stk := by
                  rw [hX, hs2]
                  rfl
                have h2 := congrArg List.length h1
                simp only [List.length_append, List.length_cons] at h2
                have : X.length = 0 := by omega
                exact List.length_eq_zero.mp this
              show [x] ∈ s2.sccs ++ [X ++ [x]]
              rw [hXnil]
              simp
            · have h1 : (pushT s v).indices x = none := by
                show upd s.indices v (some s.idx) x = none
                rw [upd_ne _ _ _ _ hxv]
                exact hxn
              exact List.mem_append_left _ (lout.dangling x h1 hxs hxk)
      · have hcond : ¬(s2.lowlink v = s2.indices v) := by
          rw [hl2, hidx2]
          intro hh
          exact hpop (Option.some.inj hh)
        refine ⟨s2, ?_, ?_⟩
        · rw [strongconnect_succ, hloop]
          dsimp only
          rw [if_neg hcond]
        · refine ⟨lout.inv, hstep2, hidx2, hlowfr, hlowbd, ?_, ?_, hnewcl⟩
          · intro hh
            rw [hl2] at hh
            exact absurd (Option.some.inj hh) hpop
          · intro x hxn hxs hxk
            by_cases hxv : x = v
            · subst hxv
              exfalso
              apply hpop
              have hsx : succs g x = [] := succs_of_not_key hxk
              have hs2 : s2 = pushT s x := by
                have hh := hloop
                rw [hsx] at hh
                simp only [scLoop] at hh
                exact (Option.some.inj hh).symm
              have hlx : s2.lowlink x = some s.idx := by
                rw [hs2]
                exact upd_same _ _ _
              rw [hl2] at hlx
              exact Option.some.inj hlx
            · have h1 : (pushT s v).indices x = none := by
                show upd s.indices v (some s.idx) x = none
                rw [upd_ne _ _ _ _ hxv]
                exact hxn
              exact lout.dangling x h1 hxs hxk

end TRSL

namespace TRSL

theorem getSccsLoop_total (g : Graph) (fuel : Nat) :
    ∀ vs s, TInv g s → s.stk = [] → (∀ v ∈ vs, v ∈ verts g) → unCard g s < fuel →
      ∃ s', getSccsLoop g fuel vs s = some s' ∧ TInv g s' ∧ s'.stk = [] ∧
        TStep g s s' ∧ (∀ v ∈ vs, (s'.indices v).isSome) ∧
        (∀ x, s.indices x = none → (s'.indices x).isSome → x ∉ keys g →
          [x] ∈ s'.sccs) ∧
        (∀ u, s.indices u = none → (s'.indices u).isSome →
          ∀ z ∈ succs g u, (s'.indices z).isSome) := by
  intro vs
  induction vs with
  | nil =>
      intro s inv hstk _ _
      refine ⟨s, by simp [getSccsLoop], inv, hstk, TStep.refl g s, by simp, ?_, ?_⟩
      · intro x hx hx' _
        rw [hx] at hx'
        exact absurd hx' (by simp)
      · intro u hu hu' _ _
        rw [hu] at hu'
        exact absurd hu' (by simp)
  | cons v vs ih =>
      intro s inv hstk hvs hc
      have hvv : v ∈ verts g := hvs v (List.mem_cons_self v vs)
      have hvsT : ∀ u ∈ vs, u ∈ verts g := fun u hu => hvs u (List.mem_cons_of_mem v hu)
      by_cases hn : s.indices v = none
      · obtain ⟨t, ht, out⟩ := strongconnect_total g fuel v s inv hn hvv hc
        have htstk : t.stk = [] := by
          obtain ⟨l, hl, hle⟩ := out.inv.lowlink_le v s.idx out.idx_v
          have hge : s.idx ≤ l :=
            out.low_bound s.idx (le_refl _)
              (fun x hx => absurd hx (by rw [hstk]; simp)) l hl
          have : l = s.idx := le_antisymm hle hge
          rw [← hstk]
          exact out.pop_done (by rw [hl, this])
        have hct : unCard g t < fuel := lt_of_le_of_lt (unCard_mono out.step) hc
        obtain ⟨s', hrest, inv', hstk', step', proc', dang', newcl'⟩ :=
          ih t out.inv htstk hvsT hct
        have heq : getSccsLoop g fuel (v :: vs) s = getSccsLoop g fuel vs t := by
          simp only [getSccsLoop, hn, Option.isNone_none, if_true, ht]
        refine ⟨s', by rw [heq]; exact hrest, inv', hstk', out.step.trans step', ?_, ?_, ?_⟩
        · intro u hu
          rcases List.mem_cons.mp hu with he | hm
          · subst he
            obtain ⟨j, hj⟩ := Option.isSome_iff_exists.mp (by simp [out.idx_v] :
              (t.indices u).isSome)
            simp [step'.indices_mono u j hj]
          · exact proc' u hm
        · intro x hx hxs hxk
          cases hm : t.indices x with
          | none => exact dang' x hm hxs hxk
          | some i =>
              obtain ⟨L, hL⟩ := step'.sccs_ext
              rw [hL]
              exact List.mem_append_left _ (out.dangling x hx (by simp [hm]) hxk)
        · intro u hu hus z hz
          cases hm : t.indices u with
          | none => exact newcl' u hm hus z hz
          | some i =>
              have h3 := out.new_closed u hu (by simp [hm]) z hz
              obtain ⟨j, hj⟩ := Option.isSome_iff_exists.mp h3
              simp [step'.indices_mono z j hj]
      · have heq : getSccsLoop g fuel (v :: vs) s = getSccsLoop g fuel vs s := by
          have hn' : (s.indices v).isNone = false := by
            cases hm : s.indices v with
            | none => exact absurd hm hn
            | some i => rfl
          simp only [getSccsLoop, hn', Bool.false_eq_true, if_false]
        obtain ⟨s', hrest, inv', hstk', step', proc', dang', newcl'⟩ :=
          ih s inv hstk hvsT hc
        refine ⟨s', by rw [heq]; exact hrest, inv', hstk', step', ?_, dang', newcl'⟩
        intro u hu
        rcases List.mem_cons.mp hu with he | hm
        · subst he
          obtain ⟨i, hi⟩ := Option.isSome_iff_exists.mp (Option.ne_none_iff_isSome.mp hn)
          simp [step'.indices_mono u i hi]
        · exact proc' u hm

/-- Enough fuel for `get_sccs` on `g`: one more than the number of distinct
vertices. -/
def tarjanFuel (g : Graph) : Nat := (verts g).toFinset.card + 1

theorem TInv_initT (g : Graph) : TInv g initT := by
  refine ⟨by simp [initT], ?_, ?_, ?_, ?_, by simp [initT], by simp [initT], ?_,
    by simp [initT], ?_, ?_⟩
  · intro v hv; exact absurd hv (by simp [initT])
  · intro v; simp [initT]
  · intro v; simp [initT]
  · intro v hv; exact absurd hv (by simp [initT])
  · intro v i hv; exact absurd hv (by simp [initT])
  · intro v i hv; exact absurd hv (by simp [initT])
  · intro v hv; exact absurd hv (by simp [initT])

end TRSL

namespace TRSL

theorem lookup_mem_nodup {g : Graph} (hnd : (keys g).Nodup) {p : V × List V}
    (hp : p ∈ g) : g.lookup p.1 = some p.2 := by
  induction g with
  | nil => exact absurd hp (by simp)
  | cons q g ih =>
      obtain ⟨k0, l0⟩ := q
      rcases List.mem_cons.mp hp with he | hm
      · subst he
        rw [List.lookup_cons]
        simp
      · have hnd' : (k0 :: keys g).Nodup := hnd
        have hk : p.1 ≠ k0 := by
          intro he
          have h1 : k0 ∈ keys g := by
            rw [← he]
            exact List.mem_map.mpr ⟨p, hm, rfl⟩
          exact (List.nodup_cons.mp hnd').1 h1
        rw [List.lookup_cons]
        have hb : (p.1 == k0) = false := by simp [hk]
        rw [hb]
        exact ih (List.nodup_cons.mp hnd').2 hm

/-- C10: `get_sccs`, run with enough fuel, returns components that are each
duplicate-free and pairwise disjoint, whose union is exactly the set of keys
together with every vertex named in a successor list, and every dangling
successor vertex (not a key) forms a singleton component. -/
theorem claim_C10_scc_partition (g : Graph) (hnd : (keys g).Nodup) :
    ∃ sccs, get_sccs g (tarjanFuel g) = some sccs ∧
      (∀ c ∈ sccs, c.Nodup) ∧
      sccs.Pairwise (fun a b => ∀ x ∈ a, x ∉ b) ∧
      (∀ x, x ∈ sccs.flatten ↔ x ∈ verts g) ∧
      (∀ x, x ∈ verts g → x ∉ keys g → [x] ∈ sccs) := by
  have hc : unCard g initT < tarjanFuel g := by
    have h1 : unCard g initT ≤ (verts g).toFinset.card :=
      Finset.card_le_card (Finset.filter_subset _ _)
    have h2 : tarjanFuel g = (verts g).toFinset.card + 1 := rfl
    omega
  obtain ⟨s', hrun, inv', hstk', step', proc', dang', newcl'⟩ :=
    getSccsLoop_total g (tarjanFuel g) (keys g) initT (TInv_initT g) rfl
      (fun v hv => List.mem_append_left _ hv) hc
  have hall_idx : ∀ x ∈ verts g, (s'.indices x).isSome := by
    intro x hx
    rcases List.mem_append.mp hx with hk | hs
    · exact proc' x hk
    · obtain ⟨l, hl, hxl⟩ := List.mem_flatten.mp hs
      obtain ⟨p, hp, hpe⟩ := List.mem_map.mp hl
      have hlk : g.lookup p.1 = some p.2 := lookup_mem_nodup hnd hp
      have hk1 : p.1 ∈ keys g := List.mem_map.mpr ⟨p, hp, rfl⟩
      have h2 : x ∈ succs g p.1 := by
        rw [succs, hlk]
        simpa [hpe] using hxl
      exact newcl' p.1 rfl (proc' p.1 hk1) x h2
  refine ⟨s'.sccs, ?_, inv'.sccs_nodup, inv'.sccs_disj, ?_, ?_⟩
  · simp [get_sccs, hrun]
  · intro x
    constructor
    · intro hx
      exact inv'.indexed_verts x ((inv'.indexed_iff x).mpr (Or.inr hx))
    · intro hx
      rcases (inv'.indexed_iff x).mp (hall_idx x hx) with hsk | hfl
      · rw [hstk'] at hsk
        exact absurd hsk (by simp)
      · exact hfl
  · intro x hx hxk
    exact dang' x rfl (hall_idx x hx) hxk

/-- Witness for C10 on the graph `{1: [2], 2: [1, 3]}` whose successor entry 3
is dangling. -/
theorem claim_C10_scc_partition_witness :
    ∃ sccs, get_sccs [(1, [2]), (2, [1, 3])]
        (tarjanFuel [(1, [2]), (2, [1, 3])]) = some sccs ∧
      (∀ c ∈ sccs, c.Nodup) ∧
      sccs.Pairwise (fun a b => ∀ x ∈ a, x ∉ b) ∧
      (∀ x, x ∈ sccs.flatten ↔ x ∈ verts [(1, [2]), (2, [1, 3])]) ∧
      (∀ x, x ∈ verts [(1, [2]), (2, [1, 3])] → x ∉ keys [(1, [2]), (2, [1, 3])] →
        [x] ∈ sccs) :=
  claim_C10_scc_partition [(1, [2]), (2, [1, 3])] (by decide)

end TRSL

namespace TRSL

/-! ## The week-1 whole-graph variant (SL1.py)

Same `cycle`/`_unmark`/`_nocycle` procedures, but the object is built over the
whole graph (`nodes = graph.keys()`, `A` a plain copy of the adjacency) and
`run` computes in-degrees from the original graph, guarding dangling targets
with `if v in indegrees`. -/

/-- `SzwarcfiterLauer.__init__(graph)` of week 1. -/
def initSL1 (g : Graph) : SLState :=
  { nodes := keys g, n := (keys g).length,
    A := fun u => if u ∈ keys g then succs g u else [],
    B := fun _ => [], mark := fun _ => false, reach := fun _ => false,
    position := fun _ => 0, stk := [], cycles := [] }

/-- In-degree over the whole graph, counting only targets that are keys
(`if v in indegrees: indegrees[v] += 1`). -/
def indeg1 (g : Graph) (v : V) : Nat :=
  ((keys g).map (fun u => ((succs g u).filter (fun w => (keys g).contains w)).count v)).sum

/-- `SzwarcfiterLauer(graph).run()` of week 1. -/
def runSL1 (g : Graph) (fuel : Nat) : Option (List (List V)) :=
  (runLoop fuel (sortDesc (indeg1 g) (keys g)) (initSL1 g)).map SLState.cycles

end TRSL

namespace TRSL

/-! ## Fuel monotonicity of the Tarjan phase

`strongconnect`'s fuel only bounds recursion depth, so a successful run stays
successful (with the same result) at any larger fuel.  These lemmas let facts
proved at the canonical sufficient fuel transfer to every fuel at which the
run happens to succeed. -/

theorem scLoop_mono {rec rec' : V → TState → Option TState}
    (hrec : ∀ w t r, rec w t = some r → rec' w t = some r) (v : V) :
    ∀ ws s r, scLoop rec v ws s = some r → scLoop rec' v ws s = some r := by
  intro ws
  induction ws with
  | nil => intro s r h; exact h
  | cons w ws ih =>
      intro s r h
      rw [scLoop] at h ⊢
      by_cases hw : (s.indices w).isNone = true
      · rw [if_pos hw] at h ⊢
        cases hrc : rec w s with
        | none => rw [hrc] at h; exact Option.noConfusion h
        | some s1 =>
            rw [hrc] at h
            rw [hrec w s s1 hrc]
            dsimp only at h ⊢
            cases h1 : s1.lowlink v with
            | none =>
                rw [h1] at h
                cases h2 : s1.lowlink w with
                | none => rw [h2] at h; dsimp only at h; exact Option.noConfusion h
                | some b => rw [h2] at h; dsimp only at h; exact Option.noConfusion h
            | some a =>
                rw [h1] at h
                cases h2 : s1.lowlink w with
                | none => rw [h2] at h; dsimp only at h; exact Option.noConfusion h
                | some b =>
                    rw [h2] at h
                    dsimp only at h ⊢
                    exact ih _ _ h
      · rw [if_neg hw] at h ⊢
        by_cases ho : s.onstk w = true
        · rw [if_pos ho] at h ⊢
          cases h1 : s.lowlink v with
          | none =>
              rw [h1] at h
              cases h2 : s.indices w with
              | none => rw [h2] at h; dsimp only at h; exact Option.noConfusion h
              | some b => rw [h2] at h; dsimp only at h; exact Option.noConfusion h
          | some a =>
              rw [h1] at h
              cases h2 : s.indices w with
              | none => rw [h2] at h; dsimp only at h; exact Option.noConfusion h
              | some b =>
                  rw [h2] at h
                  dsimp only at h ⊢
                  exact ih _ _ h
        · rw [if_neg ho] at h ⊢
          exact ih _ _ h

theorem strongconnect_mono (g : Graph) : ∀ fuel v s r,
    strongconnect g fuel v s = some r → strongconnect g (fuel + 1) v s = some r := by
  intro fuel
  induction fuel with
  | zero => intro v s r h; exact Option.noConfusion h
  | succ fuel ih =>
      intro v s r h
      rw [strongconnect] at h ⊢
      cases hl : scLoop (strongconnect g fuel) v (succs g v)
          { s with indices := upd s.indices v (some s.idx),
                   lowlink := upd s.lowlink v (some s.idx),
                   idx := s.idx + 1, stk := v :: s.stk,
                   onstk := upd s.onstk v true } with
      | none => rw [hl] at h; exact Option.noConfusion h
      | some s2 =>
          rw [hl] at h
          rw [scLoop_mono (fun w t r' h' => ih w t r' h') v _ _ _ hl]
          exact h

theorem strongconnect_mono_le (g : Graph) {fuel fuel' : Nat} (hle : fuel ≤ fuel') :
    ∀ v s r, strongconnect g fuel v s = some r → strongconnect g fuel' v s = some r := by
  induction fuel' with
  | zero =>
      intro v s r h
      have h0 : fuel = 0 := Nat.le_zero.mp hle
      rw [h0] at h
      exact h
  | succ n ih =>
      intro v s r h
      rcases Nat.lt_or_ge fuel (n + 1) with hlt | hge
      · exact strongconnect_mono g n v s r (ih (Nat.lt_succ_iff.mp hlt) v s r h)
      · have he : fuel = n + 1 := le_antisymm hle hge
        rw [he] at h
        exact h

theorem getSccsLoop_mono (g : Graph) {fuel fuel' : Nat} (hle : fuel ≤ fuel') :
    ∀ vs s r, getSccsLoop g fuel vs s = some r → getSccsLoop g fuel' vs s = some r := by
  intro vs
  induction vs with
  | nil => intro s r h; exact h
  | cons v vs ih =>
      intro s r h
      rw [getSccsLoop] at h ⊢
      by_cases hv : (s.indices v).isNone = true
      · rw [if_pos hv] at h ⊢
        cases hc : strongconnect g fuel v s with
        | none => rw [hc] at h; exact Option.noConfusion h
        | some t =>
            rw [hc] at h
            rw [strongconnect_mono_le g hle v s t hc]
            exact ih _ _ h
      · rw [if_neg hv] at h ⊢
        exact ih _ _ h

theorem get_sccs_mono (g : Graph) {fuel fuel' : Nat} (hle : fuel ≤ fuel')
    {sccs : List (List V)} (h : get_sccs g fuel = some sccs) :
    get_sccs g fuel' = some sccs := by
  simp only [get_sccs, Option.map_eq_some'] at h ⊢
  obtain ⟨s', hs', hmap⟩ := h
  exact ⟨s', getSccsLoop_mono g hle (keys g) initT s' hs', hmap⟩

/-- Any successful `get_sccs` run returns duplicate-free components, each a
subset of the touched vertices. -/
theorem get_sccs_sound (g : Graph) {fuel : Nat} {sccs : List (List V)}
    (h : get_sccs g fuel = some sccs) :
    (∀ c ∈ sccs, c.Nodup) ∧ (∀ c ∈ sccs, ∀ x ∈ c, x ∈ verts g) := by
  have hkv : ∀ v ∈ keys g, v ∈ verts g := fun v hv => by
    simp only [verts, List.mem_append]
    exact Or.inl hv
  have hcard : unCard g initT < tarjanFuel g := by
    have hle : unCard g initT ≤ (verts g).toFinset.card :=
      Finset.card_le_card (Finset.filter_subset _ _)
    simp only [tarjanFuel]
    omega
  obtain ⟨s', hs', inv', _, _, _, _, _⟩ :=
    getSccsLoop_total g (max fuel (tarjanFuel g)) (keys g) initT (TInv_initT g)
      rfl hkv (lt_of_lt_of_le hcard (le_max_right _ _))
  have hbig : get_sccs g (max fuel (tarjanFuel g)) = some sccs :=
    get_sccs_mono g (le_max_left _ _) h
  rw [get_sccs, hs'] at hbig
  have hsccs : sccs = s'.sccs := (Option.some.inj hbig).symm
  subst hsccs
  refine ⟨inv'.sccs_nodup, ?_⟩
  intro c hc x hx
  have hxfl : x ∈ s'.sccs.flatten := List.mem_flatten.mpr ⟨c, hc, hx⟩
  have hix : (s'.indices x).isSome := (inv'.indexed_iff x).mpr (Or.inr hxfl)
  exact inv'.indexed_verts x hix

end TRSL

namespace TRSL

/-! ## Ghost instrumentation for the Szwarcfiter–Lauer search

To prove the deep invariants of `cycle`/`_unmark` (no vertex of the current
path stack is ever unmarked by a cascade, every emitted cycle is a closed
elementary cycle, the blocking lists exactly record the removed edges), the
states of the search are annotated with ghost data that the Python object
does not store: a global push counter (`clock`), the value of that counter
when the current epoch of each vertex started (`stamp`, set when `cycle(v,·)`
marks and pushes `v`), and for every entry of a blocking list `B[y]` the
counter value at the moment `_nocycle` appended it (`bt`).  The ghost data is
related to the real state only by the coupling `s.B x = (G.bt x).map fst`;
all theorems about the program itself quantify over it existentially. -/

structure Ghost where
  clock : Nat
  stamp : V → Nat
  bt : V → List (V × Nat)

/-- The closed elementary cycle predicate of the specification: first equals
last, at least two entries, and no repetition besides the closing one. -/
def ElemClosed (c : List V) : Prop :=
  c.head? = c.getLast? ∧ c.dropLast.Nodup ∧ 2 ≤ c.length

/-- The invariant bundle of a Szwarcfiter–Lauer state `s` with ghost `G`,
relative to the initial working adjacency `A0` and a list `E` of exemptions:
the vertices whose `_unmark` frame is currently open (between clearing the
mark and clearing the blocking list).  Outside `_unmark`, `E = []`.

* `coup`: ghost coupling of the blocking lists.
* `stk_sorted`: stack vertices carry strictly increasing epoch stamps.
* `bt_own`: entries of a marked vertex's blocking list postdate its epoch.
* `blocked`: a marked member of a blocking list has a later epoch than every
  other stack vertex whose epoch predates the entry.
* `anchored`: if a marked member's current epoch predates the entry (it was
  the running vertex when `_nocycle` fired), every stack vertex whose epoch
  predates the entry sits at or below it.
* `pos_stk`/`pos_off`: `position` holds the 1-based stack slot on the stack
  and `n + 1` for marked off-stack vertices.
* `cnt`: the blocking-list bookkeeping, in multiset form: occurrences of `w`
  in `A[u]` plus occurrences of `u` in `B[w]` equal the occurrences of `w` in
  the initial `A0[u]`.
* `cyc_ok`: every recorded cycle is a closed elementary cycle. -/
structure SInvE (A0 : V → List V) (E : List V) (s : SLState) (G : Ghost) : Prop where
  coup : ∀ x, s.B x = (G.bt x).map Prod.fst
  ndn : s.nodes.Nodup
  neq : s.n = s.nodes.length
  stk_nodes : ∀ x ∈ s.stk, x ∈ s.nodes
  stk_mark : ∀ x ∈ s.stk, s.mark x = true
  stk_sorted : s.stk.Pairwise (fun a b => G.stamp a < G.stamp b)
  stamp_clock : ∀ x, G.stamp x ≤ G.clock
  bt_own : ∀ x, s.mark x = true → ∀ p ∈ G.bt x, G.stamp x ≤ p.2
  bt_clock : ∀ x, ∀ p ∈ G.bt x, p.2 ≤ G.clock
  bempty : ∀ x, x ∉ E → s.mark x = false → s.B x = []
  blocked : ∀ x, ∀ p ∈ G.bt x, s.mark p.1 = true → ∀ z ∈ s.stk, z ≠ p.1 →
    G.stamp z ≤ p.2 → G.stamp z < G.stamp p.1
  anchored : ∀ x, ∀ p ∈ G.bt x, s.mark p.1 = true → G.stamp p.1 ≤ p.2 →
    ∀ z ∈ s.stk, G.stamp z ≤ p.2 → G.stamp z ≤ G.stamp p.1
  pos_stk : ∀ i x, s.stk[i]? = some x → s.position x = i + 1
  pos_off : ∀ x, x ∉ E → s.mark x = true → x ∉ s.stk → s.position x = s.n + 1
  A_sub : ∀ u, ∀ w ∈ s.A u, w ∈ s.nodes
  B_sub : ∀ u, ∀ w ∈ s.B u, w ∈ s.nodes
  mark_reach : ∀ x, x ∉ E → s.mark x = true → s.reach x = true ∨ x ∈ s.stk
  mark_nodes : ∀ x, s.mark x = true → x ∈ s.nodes
  cnt : ∀ u w, w ∉ E → (s.A u).count w + (s.B w).count u = (A0 u).count w
  cyc_ok : ∀ c ∈ s.cycles, ElemClosed c

theorem length_le_of_nodup_subset {l l' : List V} (hnd : l.Nodup)
    (hsub : ∀ x ∈ l, x ∈ l') : l.length ≤ l'.length := by
  calc l.length = l.toFinset.card := (List.toFinset_card_of_nodup hnd).symm
    _ ≤ l'.toFinset.card :=
        Finset.card_le_card
          (fun x hx => List.mem_toFinset.mpr (hsub x (List.mem_toFinset.mp hx)))
    _ ≤ l'.length := l'.toFinset_card_le

theorem SInvE.stk_nodup {A0 : V → List V} {E : List V} {s : SLState} {G : Ghost}
    (inv : SInvE A0 E s G) : s.stk.Nodup :=
  inv.stk_sorted.imp (fun {a b} h => fun he => absurd h (by rw [he]; exact lt_irrefl _))

theorem SInvE.stk_le_n {A0 : V → List V} {E : List V} {s : SLState} {G : Ghost}
    (inv : SInvE A0 E s G) : s.stk.length ≤ s.n := by
  rw [inv.neq]
  exact length_le_of_nodup_subset inv.stk_nodup inv.stk_nodes

/-- Weakening: a larger exemption list demands less. -/
theorem SInvE.weaken {A0 : V → List V} {E E' : List V} {s : SLState} {G : Ghost}
    (inv : SInvE A0 E s G) (hEE : ∀ x ∈ E, x ∈ E') : SInvE A0 E' s G := by
  refine ⟨inv.coup, inv.ndn, inv.neq, inv.stk_nodes, inv.stk_mark, inv.stk_sorted,
    inv.stamp_clock, inv.bt_own, inv.bt_clock, ?_, inv.blocked, inv.anchored,
    inv.pos_stk, ?_, inv.A_sub, inv.B_sub, ?_, inv.mark_nodes, ?_, inv.cyc_ok⟩
  · exact fun x hx => inv.bempty x (fun hm => hx (hEE x hm))
  · exact fun x hx => inv.pos_off x (fun hm => hx (hEE x hm))
  · exact fun x hx => inv.mark_reach x (fun hm => hx (hEE x hm))
  · exact fun u w hw => inv.cnt u w (fun hm => hw (hEE w hm))

theorem buildA_sub (g : Graph) (ns : List V) : ∀ u, ∀ w ∈ buildA g ns u, w ∈ ns := by
  have hgen : ∀ (l : List V) (A : V → List V),
      (∀ u, ∀ w ∈ A u, w ∈ ns) →
      ∀ u, ∀ w ∈ l.foldl
        (fun A u => upd A u (A u ++ (succs g u).filter (fun z => ns.contains z))) A u,
        w ∈ ns := by
    intro l
    induction l with
    | nil => intro A hA; exact hA
    | cons a l ih =>
        intro A hA
        refine ih _ ?_
        intro u w hw
        dsimp only at hw
        by_cases hu : u = a
        · subst hu
          rw [upd_same] at hw
          rcases List.mem_append.mp hw with h1 | h2
          · exact hA u w h1
          · have hf : (fun z => ns.contains z) w = true := List.of_mem_filter h2
            exact List.mem_of_elem_eq_true hf
        · rw [upd_ne _ _ _ _ hu] at hw
          exact hA u w hw
  intro u w hw
  exact hgen ns (fun _ => []) (fun _ _ h => absurd h (by simp)) u w hw

theorem insDesc_mem (key : V → Nat) (u : V) :
    ∀ l c, c ∈ insDesc key u l → c = u ∨ c ∈ l := by
  intro l
  induction l with
  | nil => intro c hc; simp [insDesc] at hc; exact Or.inl hc
  | cons x xs ih =>
      intro c hc
      rw [insDesc] at hc
      by_cases hk : key x < key u
      · rw [if_pos hk] at hc
        rcases List.mem_cons.mp hc with h | h
        · exact Or.inl h
        · exact Or.inr h
      · rw [if_neg hk] at hc
        rcases List.mem_cons.mp hc with h | h
        · exact Or.inr (by simp [h])
        · rcases ih c h with h' | h'
          · exact Or.inl h'
          · exact Or.inr (List.mem_cons_of_mem _ h')

theorem sortDesc_mem (key : V → Nat) (ns : List V) :
    ∀ c ∈ sortDesc key ns, c ∈ ns := by
  have hgen : ∀ (l acc : List V), ∀ c ∈ l.foldl (fun a u => insDesc key u a) acc,
      c ∈ acc ∨ c ∈ l := by
    intro l
    induction l with
    | nil => intro acc c hc; exact Or.inl hc
    | cons a l ih =>
        intro acc c hc
        rcases ih (insDesc key a acc) c hc with h | h
        · rcases insDesc_mem key a acc c h with h' | h'
          · exact Or.inr (by simp [h'])
          · exact Or.inl h'
        · exact Or.inr (List.mem_cons_of_mem _ h)
  intro c hc
  rcases hgen ns [] c hc with h | h
  · exact absurd h (by simp)
  · exact h

/-- When the removed edge is present, `_nocycle` is the simultaneous
append-to-`B` and erase-from-`A`. -/
theorem nocycle_eq {x y : V} {s : SLState} (hyA : y ∈ s.A x) :
    nocycle x y s =
      { s with B := upd s.B y (s.B y ++ [x]), A := upd s.A x ((s.A x).erase y) } := by
  rw [nocycle]
  simp only [hyA, if_pos]

end TRSL

namespace TRSL

theorem stamp_lt_top {A0 : V → List V} {E : List V} {s : SLState} {G : Ghost}
    {S : List V} {x : V} (inv : SInvE A0 E s G) (hstk : s.stk = S ++ [x]) :
    ∀ z ∈ S, G.stamp z < G.stamp x := by
  have hp := inv.stk_sorted
  rw [hstk] at hp
  have h := (List.pairwise_append.mp hp).2.2
  intro z hz
  exact h z hz x (by simp)

/-- `_nocycle(x, y)` preserves the invariant bundle when the running vertex
`x` is the stack top, the blocked target `y` is marked, and the edge is still
present in the working adjacency; the ghost entry records the current clock. -/
theorem nocycle_spec (A0 : V → List V) {s : SLState} {G : Ghost} {S : List V} {x y : V}
    (inv : SInvE A0 [] s G) (hstk : s.stk = S ++ [x]) (hmy : s.mark y = true)
    (hyA : y ∈ s.A x) :
    SInvE A0 [] (nocycle x y s)
      { clock := G.clock, stamp := G.stamp,
        bt := upd G.bt y (G.bt y ++ [(x, G.clock)]) } := by
  rw [nocycle_eq hyA]
  have hxstk : x ∈ s.stk := by rw [hstk]; simp
  have hmx : s.mark x = true := inv.stk_mark x hxstk
  have hxn : x ∈ s.nodes := inv.stk_nodes x hxstk
  refine ⟨?_, inv.ndn, inv.neq, inv.stk_nodes, inv.stk_mark, inv.stk_sorted,
    inv.stamp_clock, ?_, ?_, ?_, ?_, ?_, inv.pos_stk, inv.pos_off, ?_, ?_,
    inv.mark_reach, inv.mark_nodes, ?_, inv.cyc_ok⟩
  · -- coup
    intro u
    dsimp only
    by_cases huy : u = y
    · subst huy
      rw [upd_same, upd_same, List.map_append, inv.coup u]
      rfl
    · rw [upd_ne _ _ _ _ huy, upd_ne _ _ _ _ huy]
      exact inv.coup u
  · -- bt_own
    intro u hmu p hp
    dsimp only at hp ⊢
    by_cases huy : u = y
    · subst huy
      rw [upd_same] at hp
      rcases List.mem_append.mp hp with h | h
      · exact inv.bt_own u hmu p h
      · have hpe : p = (x, G.clock) := by simpa using h
        rw [hpe]
        exact inv.stamp_clock u
    · rw [upd_ne _ _ _ _ huy] at hp
      exact inv.bt_own u hmu p hp
  · -- bt_clock
    intro u p hp
    dsimp only at hp ⊢
    by_cases huy : u = y
    · subst huy
      rw [upd_same] at hp
      rcases List.mem_append.mp hp with h | h
      · exact inv.bt_clock u p h
      · have hpe : p = (x, G.clock) := by simpa using h
        rw [hpe]
    · rw [upd_ne _ _ _ _ huy] at hp
      exact inv.bt_clock u p hp
  · -- bempty
    intro u _ hmu
    dsimp only at hmu ⊢
    by_cases huy : u = y
    · subst huy
      rw [hmy] at hmu
      exact Bool.noConfusion hmu
    · rw [upd_ne _ _ _ _ huy]
      exact inv.bempty u (by simp) hmu
  · -- blocked
    intro u p hp hmp z hz hzp hzs
    dsimp only at hp hmp hz hzp hzs ⊢
    by_cases huy : u = y
    · subst huy
      rw [upd_same] at hp
      rcases List.mem_append.mp hp with h | h
      · exact inv.blocked u p h hmp z hz hzp hzs
      · have hpe : p = (x, G.clock) := by simpa using h
        rw [hpe] at hzp ⊢
        have hzS : z ∈ S := by
          rw [hstk] at hz
          rcases List.mem_append.mp hz with h' | h'
          · exact h'
          · exact absurd (by simpa using h') hzp
        exact stamp_lt_top inv hstk z hzS
    · rw [upd_ne _ _ _ _ huy] at hp
      exact inv.blocked u p hp hmp z hz hzp hzs
  · -- anchored
    intro u p hp hmp hsp z hz hzs
    dsimp only at hp hmp hsp hz hzs ⊢
    by_cases huy : u = y
    · subst huy
      rw [upd_same] at hp
      rcases List.mem_append.mp hp with h | h
      · exact inv.anchored u p h hmp hsp z hz hzs
      · have hpe : p = (x, G.clock) := by simpa using h
        rw [hpe]
        rw [hstk] at hz
        rcases List.mem_append.mp hz with h' | h'
        · exact le_of_lt (stamp_lt_top inv hstk z h')
        · rw [show z = x from by simpa using h']
    · rw [upd_ne _ _ _ _ huy] at hp
      exact inv.anchored u p hp hmp hsp z hz hzs
  · -- A_sub
    intro u w hw
    dsimp only at hw
    by_cases hux : u = x
    · subst hux
      rw [upd_same] at hw
      exact inv.A_sub u w (List.mem_of_mem_erase hw)
    · rw [upd_ne _ _ _ _ hux] at hw
      exact inv.A_sub u w hw
  · -- B_sub
    intro u w hw
    dsimp only at hw
    by_cases huy : u = y
    · subst huy
      rw [upd_same] at hw
      rcases List.mem_append.mp hw with h | h
      · exact inv.B_sub u w h
      · rw [show w = x from by simpa using h]
        exact hxn
    · rw [upd_ne _ _ _ _ huy] at hw
      exact inv.B_sub u w hw
  · -- cnt
    intro u w _
    dsimp only
    have hc := inv.cnt u w (by simp)
    by_cases hux : u = x
    · subst hux
      by_cases hwy : w = y
      · subst hwy
        rw [upd_same, upd_same, List.count_append, List.count_erase_self]
        have hpos : 0 < (s.A u).count w := List.count_pos_iff.mpr hyA
        have hone : ([u] : List V).count u = 1 := by simp
        omega
      · rw [upd_same, upd_ne _ _ _ _ hwy, List.count_erase_of_ne hwy]
        exact hc
    · by_cases hwy : w = y
      · subst hwy
        rw [upd_ne _ _ _ _ hux, upd_same, List.count_append]
        have hz : ([x] : List V).count u = 0 := by
          simp [List.count_singleton']
          intro he
          exact absurd he.symm hux
        omega
      · rw [upd_ne _ _ _ _ hux, upd_ne _ _ _ _ hwy]
        exact hc

end TRSL

namespace TRSL

/-- Pushing an unmarked vertex (the prologue of `cycle(v, q)`) preserves the
bundle; the ghost advances the clock and stamps `v`'s new epoch. -/
theorem push_SInv (A0 : V → List V) {s : SLState} {G : Ghost} {v : V}
    (inv : SInvE A0 [] s G) (hmv : s.mark v = false) (hvn : v ∈ s.nodes) :
    SInvE A0 []
      { s with mark := upd s.mark v true, stk := s.stk ++ [v],
               position := upd s.position v (s.stk ++ [v]).length }
      { clock := G.clock + 1, stamp := upd G.stamp v (G.clock + 1), bt := G.bt } := by
  have hvs : v ∉ s.stk := fun h => by rw [inv.stk_mark v h] at hmv; exact Bool.noConfusion hmv
  have hbtv : G.bt v = [] := by
    have hb : s.B v = [] := inv.bempty v (by simp) hmv
    rw [inv.coup v] at hb
    exact List.map_eq_nil_iff.mp hb
  refine ⟨inv.coup, inv.ndn, inv.neq, ?_, ?_, ?_, ?_, ?_, ?_, ?_, ?_, ?_, ?_, ?_,
    inv.A_sub, inv.B_sub, ?_, ?_, ?_, inv.cyc_ok⟩
  · -- stk_nodes
    intro z hz
    rcases List.mem_append.mp hz with h | h
    · exact inv.stk_nodes z h
    · rw [show z = v from by simpa using h]
      exact hvn
  · -- stk_mark
    intro z hz
    dsimp only
    rcases List.mem_append.mp hz with h | h
    · rw [upd_ne _ _ _ _ (fun he => hvs (by rw [← he]; exact h))]
      exact inv.stk_mark z h
    · rw [show z = v from by simpa using h, upd_same]
  · -- stk_sorted
    dsimp only
    rw [List.pairwise_append]
    refine ⟨?_, by simp, ?_⟩
    · refine inv.stk_sorted.imp_of_mem ?_
      intro a b ha hb hab
      rw [upd_ne _ _ _ _ (fun he => hvs (by rw [← he]; exact ha)),
          upd_ne _ _ _ _ (fun he => hvs (by rw [← he]; exact hb))]
      exact hab
    · intro a ha b hb
      rw [show b = v from by simpa using hb, upd_same,
          upd_ne _ _ _ _ (fun he => hvs (by rw [← he]; exact ha))]
      exact Nat.lt_succ_of_le (inv.stamp_clock a)
  · -- stamp_clock
    intro x
    dsimp only
    by_cases hxv : x = v
    · rw [hxv, upd_same]
    · rw [upd_ne _ _ _ _ hxv]
      exact Nat.le_succ_of_le (inv.stamp_clock x)
  · -- bt_own
    intro u hmu p hp
    dsimp only at hmu hp ⊢
    by_cases huv : u = v
    · subst huv
      rw [hbtv] at hp
      exact absurd hp (by simp)
    · rw [upd_ne _ _ _ _ huv] at hmu ⊢
      exact inv.bt_own u hmu p hp
  · -- bt_clock
    intro u p hp
    exact Nat.le_succ_of_le (inv.bt_clock u p hp)
  · -- bempty
    intro u _ hmu
    dsimp only at hmu
    by_cases huv : u = v
    · rw [huv, upd_same] at hmu
      exact Bool.noConfusion hmu
    · rw [upd_ne _ _ _ _ huv] at hmu
      exact inv.bempty u (by simp) hmu
  · -- blocked
    intro u p hp hmp z hz hzp hzs
    dsimp only at hp hmp hz hzp hzs ⊢
    by_cases hpv : p.1 = v
    · rw [hpv, upd_same]
      have hzv : z ≠ v := fun he => hzp (he.trans hpv.symm)
      rw [upd_ne _ _ _ _ hzv] at hzs ⊢
      exact Nat.lt_succ_of_le (inv.stamp_clock z)
    · rw [upd_ne _ _ _ _ hpv] at hmp ⊢
      rcases List.mem_append.mp hz with h | h
      · have hzv : z ≠ v := fun he => hvs (by rw [← he]; exact h)
        rw [upd_ne _ _ _ _ hzv] at hzs ⊢
        exact inv.blocked u p hp hmp z h hzp hzs
      · rw [show z = v from by simpa using h, upd_same] at hzs
        have hcl := inv.bt_clock u p hp
        omega
  · -- anchored
    intro u p hp hmp hsp z hz hzs
    dsimp only at hp hmp hsp hz hzs ⊢
    by_cases hpv : p.1 = v
    · rw [hpv, upd_same] at hsp
      have hcl := inv.bt_clock u p hp
      omega
    · rw [upd_ne _ _ _ _ hpv] at hmp hsp ⊢
      rcases List.mem_append.mp hz with h | h
      · have hzv : z ≠ v := fun he => hvs (by rw [← he]; exact h)
        rw [upd_ne _ _ _ _ hzv] at hzs ⊢
        exact inv.anchored u p hp hmp hsp z h hzs
      · rw [show z = v from by simpa using h, upd_same] at hzs
        have hcl := inv.bt_clock u p hp
        omega
  · -- pos_stk
    intro i x hx
    dsimp only at hx ⊢
    rcases Nat.lt_or_ge i s.stk.length with hi | hi
    · rw [List.getElem?_append_left hi] at hx
      have hmem : x ∈ s.stk := by
        obtain ⟨h', hget⟩ := List.getElem?_eq_some.mp hx
        rw [← hget]
        exact List.getElem_mem h'
      rw [upd_ne _ _ _ _ (fun he => hvs (by rw [← he]; exact hmem))]
      exact inv.pos_stk i x hx
    · rw [List.getElem?_append_right hi] at hx
      obtain ⟨h', hget⟩ := List.getElem?_eq_some.mp hx
      simp only [List.getElem_singleton] at hget
      rw [← hget, upd_same, List.length_append]
      have hieq : i = s.stk.length := by
        simp only [List.length_singleton] at h'
        omega
      simp only [List.length_singleton]
      omega
  · -- pos_off
    intro x _ hmx hxs
    dsimp only at hmx hxs ⊢
    have hxv : x ≠ v := fun he => hxs (by rw [he]; simp)
    rw [upd_ne _ _ _ _ hxv] at hmx ⊢
    exact inv.pos_off x (by simp) hmx (fun h => hxs (List.mem_append_left _ h))
  · -- mark_reach
    intro x _ hmx
    dsimp only at hmx ⊢
    by_cases hxv : x = v
    · right
      rw [hxv]
      simp
    · rw [upd_ne _ _ _ _ hxv] at hmx
      rcases inv.mark_reach x (by simp) hmx with h | h
      · exact Or.inl h
      · exact Or.inr (List.mem_append_left _ h)
  · -- mark_nodes
    intro x hmx
    dsimp only at hmx
    by_cases hxv : x = v
    · rw [hxv]; exact hvn
    · rw [upd_ne _ _ _ _ hxv] at hmx
      exact inv.mark_nodes x hmx
  · -- cnt
    intro u w _
    exact inv.cnt u w (by simp)

/-- Popping the top (the `stack.pop()` of `cycle(v, q)`) preserves the bundle
with `v` exempted: `v` is now marked and off the stack, but its `position`
still holds the old slot until the epilogue rewrites it. -/
theorem pop_SInv (A0 : V → List V) {s : SLState} {G : Ghost} {S : List V} {v : V}
    (inv : SInvE A0 [] s G) (hstk : s.stk = S ++ [v]) :
    SInvE A0 [v] { s with stk := S } G := by
  have hsub : ∀ z ∈ S, z ∈ s.stk := by
    intro z hz
    rw [hstk]
    exact List.mem_append_left _ hz
  refine ⟨inv.coup, inv.ndn, inv.neq, ?_, ?_, ?_, inv.stamp_clock, inv.bt_own,
    inv.bt_clock, ?_, ?_, ?_, ?_, ?_, inv.A_sub, inv.B_sub, ?_, inv.mark_nodes,
    ?_, inv.cyc_ok⟩
  · exact fun z hz => inv.stk_nodes z (hsub z hz)
  · exact fun z hz => inv.stk_mark z (hsub z hz)
  · have hp := inv.stk_sorted
    rw [hstk] at hp
    exact (List.pairwise_append.mp hp).1
  · exact fun x _ hmx => inv.bempty x (by simp) hmx
  · exact fun u p hp hmp z hz => inv.blocked u p hp hmp z (hsub z hz)
  · exact fun u p hp hmp hsp z hz => inv.anchored u p hp hmp hsp z (hsub z hz)
  · -- pos_stk
    intro i x hx
    dsimp only at hx ⊢
    refine inv.pos_stk i x ?_
    rw [hstk]
    have hi : i < S.length := by
      obtain ⟨h', _⟩ := List.getElem?_eq_some.mp hx
      exact h'
    rw [List.getElem?_append_left hi]
    exact hx
  · -- pos_off
    intro x hxe hmx hxs
    dsimp only at hmx hxs ⊢
    have hxv : x ≠ v := by simpa using hxe
    have hxstk : x ∉ s.stk := by
      rw [hstk]
      intro h
      rcases List.mem_append.mp h with h' | h'
      · exact hxs h'
      · exact hxv (by simpa using h')
    exact inv.pos_off x (by simp) hmx hxstk
  · -- mark_reach
    intro x hxe hmx
    dsimp only at hmx ⊢
    have hxv : x ≠ v := by simpa using hxe
    rcases inv.mark_reach x (by simp) hmx with h | h
    · exact Or.inl h
    · rw [hstk] at h
      rcases List.mem_append.mp h with h' | h'
      · exact Or.inr h'
      · exact absurd (by simpa using h') hxv
  · -- cnt
    intro u w hw
    exact inv.cnt u w (by simp)

/-- Recording a cycle (the `position[w] <= q` branch of the successor loop)
preserves the bundle: the recorded slice of the stack closed with `w` is a
closed elementary cycle. -/
theorem record_SInv (A0 : V → List V) {s : SLState} {G : Ghost} {w : V} {q : Nat}
    (inv : SInvE A0 [] s G) (hmw : s.mark w = true) (hpos : s.position w ≤ q)
    (hq : q ≤ s.stk.length) :
    SInvE A0 []
      { s with cycles := s.cycles ++ [s.stk.drop (s.position w - 1) ++ [w]] } G := by
  have hws : w ∈ s.stk := by
    by_contra hws
    have hoff := inv.pos_off w (by simp) hmw hws
    have hlen := inv.stk_le_n
    omega
  obtain ⟨⟨i, hi⟩, hgi⟩ := List.mem_iff_get.mp hws
  rw [List.get_eq_getElem] at hgi
  have hq? : s.stk[i]? = some w := by
    rw [List.getElem?_eq_getElem hi, hgi]
  have hpw : s.position w = i + 1 := inv.pos_stk i w hq?
  refine ⟨inv.coup, inv.ndn, inv.neq, inv.stk_nodes, inv.stk_mark, inv.stk_sorted,
    inv.stamp_clock, inv.bt_own, inv.bt_clock, inv.bempty, inv.blocked,
    inv.anchored, inv.pos_stk, inv.pos_off, inv.A_sub, inv.B_sub, inv.mark_reach,
    inv.mark_nodes, inv.cnt, ?_⟩
  intro c hc
  dsimp only at hc
  rcases List.mem_append.mp hc with h | h
  · exact inv.cyc_ok c h
  · have hce : c = s.stk.drop (s.position w - 1) ++ [w] := by simpa using h
    rw [hce, hpw]
    have hidx : i + 1 - 1 = i := by omega
    rw [hidx]
    have hdlen : (s.stk.drop i).length = s.stk.length - i := List.length_drop i s.stk
    constructor
    · -- head? = getLast?
      rw [List.getLast?_concat, List.head?_append, List.head?_drop,
          List.getElem?_eq_getElem hi, hgi]
      rfl
    constructor
    · -- dropLast nodup
      rw [List.dropLast_concat]
      exact inv.stk_nodup.sublist (List.drop_sublist i s.stk)
    · -- length
      rw [List.length_append, hdlen]
      simp only [List.length_singleton]
      omega

end TRSL

namespace TRSL

/-- Postcondition of a successful `_unmark(x)` call: the bundle is restored
with `x` no longer exempt, the stack, positions, reach flags, cycles and the
ghost clock/stamps are untouched, marks only decrease, blocking lists of
unmarked vertices are frozen and others only cleared, and the working
adjacency only receives appends, none of them of a vertex unmarked at entry
other than the cascade's own frames. -/
structure UOut (A0 : V → List V) (E : List V) (x : V) (s s' : SLState)
    (G G' : Ghost) : Prop where
  inv : SInvE A0 E s' G'
  stk_eq : s'.stk = s.stk
  nodes_eq : s'.nodes = s.nodes
  n_eq : s'.n = s.n
  pos_eq : s'.position = s.position
  reach_eq : s'.reach = s.reach
  cycles_eq : s'.cycles = s.cycles
  clock_eq : G'.clock = G.clock
  stamp_eq : G'.stamp = G.stamp
  mark_mono : ∀ u, s'.mark u = true → s.mark u = true
  mark_x : s'.mark x = false
  B_frozen : ∀ u, s.mark u = false → s'.B u = s.B u ∧ G'.bt u = G.bt u
  bt_shrink : ∀ u, G'.bt u = G.bt u ∨ G'.bt u = []
  A_ext : ∀ u, ∃ l, s'.A u = s.A u ++ l
  A_cnt_unm : ∀ u w, s.mark w = false → (s'.A u).count w = (s.A u).count w

/-- The full hypothesis set under which `_unmark(x)` runs safely: the bundle
with `x` exempt, every open outer frame unmarked, `x` marked and off the
stack, a threshold `ρ` dominating every stack stamp and dominated by `x`'s
stamp, no blocking entry at or after `ρ` whose member is still on the stack
in the same epoch (`NOLATE`), every marked member of an entry at or after `ρ`
in the same epoch has its epoch at or after `ρ` (`NOEARLY`), and the
bookkeeping sums for `x`'s own column. -/
def UHyp (A0 : V → List V) (E : List V) (x : V) (ρ : Nat) (s : SLState)
    (G : Ghost) : Prop :=
  SInvE A0 (x :: E) s G ∧
  (∀ w ∈ E, s.mark w = false) ∧
  s.mark x = true ∧ x ∉ s.stk ∧ x ∈ s.nodes ∧
  (∀ z ∈ s.stk, G.stamp z < ρ) ∧
  ρ ≤ G.stamp x ∧
  (∀ u p, p ∈ G.bt u → p.1 ∈ s.stk → G.stamp p.1 ≤ p.2 → p.2 < ρ) ∧
  (∀ u p, p ∈ G.bt u → s.mark p.1 = true → G.stamp p.1 ≤ p.2 → ρ ≤ p.2 →
    ρ ≤ G.stamp p.1) ∧
  (∀ u, (s.A u).count x + (s.B x).count u = (A0 u).count x)

/-- Postcondition of the restore loop of `_unmark(x)` over the remaining
members `ys`. -/
structure ULOut (A0 : V → List V) (E : List V) (x : V) (s s' : SLState)
    (G G' : Ghost) : Prop where
  inv : SInvE A0 (x :: E) s' G'
  stk_eq : s'.stk = s.stk
  nodes_eq : s'.nodes = s.nodes
  n_eq : s'.n = s.n
  pos_eq : s'.position = s.position
  reach_eq : s'.reach = s.reach
  cycles_eq : s'.cycles = s.cycles
  clock_eq : G'.clock = G.clock
  stamp_eq : G'.stamp = G.stamp
  mark_mono : ∀ u, s'.mark u = true → s.mark u = true
  B_frozen : ∀ u, s.mark u = false → s'.B u = s.B u ∧ G'.bt u = G.bt u
  bt_shrink : ∀ u, G'.bt u = G.bt u ∨ G'.bt u = []
  A_ext : ∀ u, ∃ l, s'.A u = s.A u ++ l
  A_cnt_unm : ∀ u w, w ≠ x → s.mark w = false → (s'.A u).count w = (s.A u).count w
  cnt_x : ∀ u, (s'.A u).count x = (A0 u).count x

theorem unmarkLoop_spec (A0 : V → List V) (E : List V) (x : V) (ρ : Nat)
    (rec : V → SLState → Option SLState)
    (hrec : ∀ y t t' H, rec y t = some t' → UHyp A0 (x :: E) y ρ t H →
      ∃ H', UOut A0 (x :: E) y t t' H H') :
    ∀ ys t t' H,
      unmarkLoop rec x ys t = some t' →
      SInvE A0 (x :: E) t H →
      (∀ w ∈ x :: E, t.mark w = false) →
      x ∉ t.stk → x ∈ t.nodes →
      (∀ z ∈ t.stk, H.stamp z < ρ) →
      (∀ u p, p ∈ H.bt u → p.1 ∈ t.stk → H.stamp p.1 ≤ p.2 → p.2 < ρ) →
      (∀ u p, p ∈ H.bt u → t.mark p.1 = true → H.stamp p.1 ≤ p.2 → ρ ≤ p.2 →
        ρ ≤ H.stamp p.1) →
      (∀ y ∈ ys, ∃ τ, (y, τ) ∈ H.bt x ∧ ρ ≤ τ) →
      (∀ u, (t.A u).count x + ys.count u = (A0 u).count x) →
      ∃ H', ULOut A0 E x t t' H H' := by
  intro ys
  induction ys with
  | nil =>
      intro t t' H hrun inv hE hxs hxn hstk hNL hNE hys hpart
      have ht : t' = t := by
        rw [unmarkLoop] at hrun
        exact (Option.some.inj hrun).symm
      subst ht
      refine ⟨H, inv, rfl, rfl, rfl, rfl, rfl, rfl, rfl, rfl,
        fun u h => h, fun u h => ⟨rfl, rfl⟩, fun u => Or.inl rfl,
        fun u => ⟨[], by simp⟩, fun u w _ _ => rfl, ?_⟩
      intro u
      have := hpart u
      simpa using this
  | cons y ys ih =>
      intro t t' H hrun inv hE hxs hxn hstk hNL hNE hys hpart
      rw [unmarkLoop] at hrun
      set t1 : SLState := { t with A := upd t.A y (t.A y ++ [x]) } with ht1
      -- the invariant after the append-only A update
      have hmxf : t.mark x = false := hE x (by simp)
      have inv1 : SInvE A0 (x :: E) t1 H := by
        refine ⟨inv.coup, inv.ndn, inv.neq, inv.stk_nodes, inv.stk_mark,
          inv.stk_sorted, inv.stamp_clock, inv.bt_own, inv.bt_clock, inv.bempty,
          inv.blocked, inv.anchored, inv.pos_stk, inv.pos_off, ?_, inv.B_sub,
          inv.mark_reach, inv.mark_nodes, ?_, inv.cyc_ok⟩
        · intro u w hw
          dsimp only [ht1] at hw
          by_cases huy : u = y
          · subst huy
            rw [upd_same] at hw
            rcases List.mem_append.mp hw with h | h
            · exact inv.A_sub u w h
            · rw [show w = x from by simpa using h]
              exact hxn
          · rw [upd_ne _ _ _ _ huy] at hw
            exact inv.A_sub u w hw
        · intro u w hw
          dsimp only [ht1]
          have hwx : w ≠ x := fun he => hw (by rw [he]; simp)
          by_cases huy : u = y
          · subst huy
            rw [upd_same, List.count_append]
            have hz : ([x] : List V).count w = 0 := by
              simp [List.count_singleton']
              intro he
              exact absurd he.symm hwx
            rw [hz]
            have := inv.cnt u w hw
            omega
          · rw [upd_ne _ _ _ _ huy]
            exact inv.cnt u w hw
      have hpart1 : ∀ u, (t1.A u).count x + ys.count u = (A0 u).count x := by
        intro u
        dsimp only [ht1]
        have hp := hpart u
        by_cases huy : u = y
        · subst huy
          rw [upd_same, List.count_append]
          have h1 : ([x] : List V).count x = 1 := by simp
          have h2 : (u :: ys).count u = ys.count u + 1 := by
            simp [List.count_cons]
          rw [h1]
          omega
        · rw [upd_ne _ _ _ _ huy]
          have h2 : (y :: ys).count u = ys.count u := by
            simp [List.count_cons]
            intro he
            exact absurd he.symm huy
          omega
      have hyst : ∀ y' ∈ ys, ∃ τ, (y', τ) ∈ H.bt x ∧ ρ ≤ τ :=
        fun y' hy' => hys y' (List.mem_cons_of_mem _ hy')
      by_cases hmy : t.mark y = true
      · -- marked member: recurse
        rw [if_pos (show t1.mark y = true from hmy)] at hrun
        obtain ⟨τ, hτmem, hτρ⟩ := hys y (by simp)
        -- the member is off the stack
        have hyoff : y ∉ t.stk := by
          intro hyin
          rcases le_or_lt (H.stamp y) τ with hsy | hsy
          · exact absurd (hNL x (y, τ) hτmem hyin hsy) (by omega)
          · have := hstk y hyin
            omega
        -- and its epoch is at or after the threshold
        have hρy : ρ ≤ H.stamp y := by
          rcases le_or_lt (H.stamp y) τ with hsy | hsy
          · exact hNE x (y, τ) hτmem hmy hsy hτρ
          · omega
        have hynx : y ≠ x := fun he => by rw [he, hmxf] at hmy; exact Bool.noConfusion hmy
        have hynE : y ∉ x :: E := by
          intro hyE
          rw [hE y hyE] at hmy
          exact Bool.noConfusion hmy
        have hyn : y ∈ t.nodes := inv.B_sub x y (by
          rw [inv.coup x]
          exact List.mem_map.mpr ⟨(y, τ), hτmem, rfl⟩)
        cases hrc : rec y t1 with
        | none => rw [hrc] at hrun; exact Option.noConfusion hrun
        | some t2 =>
            rw [hrc] at hrun
            have hy1 : UHyp A0 (x :: E) y ρ t1 H := by
              refine ⟨inv1.weaken (fun w hw => List.mem_cons_of_mem _ hw), ?_,
                hmy, hyoff, hyn, hstk, hρy, hNL, hNE, ?_⟩
              · intro w hw
                exact hE w hw
              · intro u
                have := inv1.cnt u y hynE
                exact this
            obtain ⟨H2, uout⟩ := hrec y t1 t2 H hrc hy1
            -- re-establish the loop hypotheses at t2
            have hE2 : ∀ w ∈ x :: E, t2.mark w = false := by
              intro w hw
              cases hm2 : t2.mark w with
              | false => rfl
              | true =>
                  have := uout.mark_mono w hm2
                  rw [hE w hw] at this
                  exact Bool.noConfusion this
            have hbtx2 : H2.bt x = H.bt x := (uout.B_frozen x hmxf).2
            have hstk2 : t2.stk = t.stk := uout.stk_eq
            have hstamp2 : H2.stamp = H.stamp := uout.stamp_eq
            have hNL2 : ∀ u p, p ∈ H2.bt u → p.1 ∈ t2.stk → H2.stamp p.1 ≤ p.2 →
                p.2 < ρ := by
              intro u p hp hps hsp
              rw [hstk2] at hps
              rw [hstamp2] at hsp
              rcases uout.bt_shrink u with h | h
              · rw [h] at hp
                exact hNL u p hp hps hsp
              · rw [h] at hp
                exact absurd hp (by simp)
            have hNE2 : ∀ u p, p ∈ H2.bt u → t2.mark p.1 = true →
                H2.stamp p.1 ≤ p.2 → ρ ≤ p.2 → ρ ≤ H2.stamp p.1 := by
              intro u p hp hmp hsp hρp
              rw [hstamp2] at hsp ⊢
              rcases uout.bt_shrink u with h | h
              · rw [h] at hp
                exact hNE u p hp (uout.mark_mono p.1 hmp) hsp hρp
              · rw [h] at hp
                exact absurd hp (by simp)
            have hys2 : ∀ y' ∈ ys, ∃ τ', (y', τ') ∈ H2.bt x ∧ ρ ≤ τ' := by
              intro y' hy'
              obtain ⟨τ', hm, hρ'⟩ := hyst y' hy'
              exact ⟨τ', by rw [hbtx2]; exact hm, hρ'⟩
            have hpart2 : ∀ u, (t2.A u).count x + ys.count u = (A0 u).count x := by
              intro u
              rw [uout.A_cnt_unm u x (by
                show t1.mark x = false
                exact hmxf)]
              exact hpart1 u
            have hstk3 : ∀ z ∈ t2.stk, H2.stamp z < ρ := by
              intro z hz
              rw [hstk2] at hz
              rw [hstamp2]
              exact hstk z hz
            obtain ⟨H', lout⟩ := ih t2 t' H2 hrun uout.inv hE2
              (by rw [hstk2]; exact hxs) (by rw [uout.nodes_eq]; exact hxn)
              hstk3 hNL2 hNE2 hys2 hpart2
            -- compose the step and the tail
            refine ⟨H', lout.inv, ?_, ?_, ?_, ?_, ?_, ?_, ?_, ?_, ?_, ?_, ?_, ?_, ?_, ?_⟩
            · rw [lout.stk_eq, hstk2]
            · rw [lout.nodes_eq, uout.nodes_eq]
            · rw [lout.n_eq, uout.n_eq]
            · rw [lout.pos_eq, uout.pos_eq]
            · rw [lout.reach_eq, uout.reach_eq]
            · rw [lout.cycles_eq, uout.cycles_eq]
            · rw [lout.clock_eq, uout.clock_eq]
            · rw [lout.stamp_eq, uout.stamp_eq]
            · intro u hu
              exact uout.mark_mono u (lout.mark_mono u hu)
            · intro u hu
              have hu1 : t1.mark u = false := hu
              obtain ⟨hB2, hbt2⟩ := uout.B_frozen u hu1
              have hu2 : t2.mark u = false := by
                cases hm2 : t2.mark u with
                | false => rfl
                | true => rw [uout.mark_mono u hm2] at hu; exact Bool.noConfusion hu
              obtain ⟨hB', hbt'⟩ := lout.B_frozen u hu2
              exact ⟨by rw [hB', hB2], by rw [hbt', hbt2]⟩
            · intro u
              rcases lout.bt_shrink u with h | h
              · rcases uout.bt_shrink u with h2 | h2
                · exact Or.inl (by rw [h, h2])
                · exact Or.inr (by rw [h, h2])
              · exact Or.inr h
            · intro u
              obtain ⟨l2, hl2⟩ := uout.A_ext u
              obtain ⟨l', hl'⟩ := lout.A_ext u
              dsimp only [ht1] at hl2
              by_cases huy : u = y
              · subst huy
                rw [upd_same] at hl2
                exact ⟨[x] ++ l2 ++ l', by rw [hl', hl2]; simp⟩
              · rw [upd_ne _ _ _ _ huy] at hl2
                exact ⟨l2 ++ l', by rw [hl', hl2]; simp⟩
            · intro u w hwx hw
              have hw1 : t1.mark w = false := hw
              have hw2 : t2.mark w = false := by
                cases hm2 : t2.mark w with
                | false => rfl
                | true => rw [uout.mark_mono w hm2] at hw; exact Bool.noConfusion hw
              rw [lout.A_cnt_unm u w hwx hw2, uout.A_cnt_unm u w hw1]
              dsimp only [ht1]
              by_cases huy : u = y
              · subst huy
                rw [upd_same, List.count_append]
                have hz : ([x] : List V).count w = 0 := by
                  simp [List.count_singleton']
                  intro he
                  exact absurd he.symm hwx
                omega
              · rw [upd_ne _ _ _ _ huy]
            · exact lout.cnt_x
      · -- unmarked member: restore the edge only
        rw [if_neg (show ¬ t1.mark y = true from hmy)] at hrun
        obtain ⟨H', lout⟩ := ih t1 t' H hrun inv1 hE hxs hxn hstk hNL hNE hyst hpart1
        refine ⟨H', lout.inv, lout.stk_eq, lout.nodes_eq, lout.n_eq, lout.pos_eq,
          lout.reach_eq, lout.cycles_eq, lout.clock_eq, lout.stamp_eq,
          lout.mark_mono, lout.B_frozen, lout.bt_shrink, ?_, ?_, lout.cnt_x⟩
        · intro u
          obtain ⟨l', hl'⟩ := lout.A_ext u
          dsimp only [ht1] at hl'
          by_cases huy : u = y
          · subst huy
            rw [upd_same] at hl'
            exact ⟨[x] ++ l', by rw [hl']; simp⟩
          · rw [upd_ne _ _ _ _ huy] at hl'
            exact ⟨l', hl'⟩
        · intro u w hwx hw
          rw [lout.A_cnt_unm u w hwx hw]
          dsimp only [ht1]
          by_cases huy : u = y
          · subst huy
            rw [upd_same, List.count_append]
            have hz : ([x] : List V).count w = 0 := by
              simp [List.count_singleton']
              intro he
              exact absurd he.symm hwx
            omega
          · rw [upd_ne _ _ _ _ huy]

end TRSL

namespace TRSL

theorem unmark_spec (A0 : V → List V) : ∀ fuel x s s' G E ρ,
    unmark fuel x s = some s' → UHyp A0 E x ρ s G →
    ∃ G', UOut A0 E x s s' G G' := by
  intro fuel
  induction fuel with
  | zero => intro x s s' G E ρ h _; exact Option.noConfusion h
  | succ fuel ih =>
      intro x s s' G E ρ hrun hyp
      obtain ⟨inv, hE, hmx, hxs, hxn, hstk, hρx, hNL, hNE, hpart⟩ := hyp
      simp only [unmark] at hrun
      split at hrun
      · exact Option.noConfusion hrun
      · next s2 heq =>
          cases hrun
          set s1 : SLState := { s with mark := upd s.mark x false } with hs1def
          have hmx1 : s1.mark x = false := upd_same _ _ _
          have hmne : ∀ u, u ≠ x → s1.mark u = s.mark u := fun u hu => upd_ne _ _ _ _ hu
          have inv1 : SInvE A0 (x :: E) s1 G := by
            refine ⟨inv.coup, inv.ndn, inv.neq, inv.stk_nodes, ?_, inv.stk_sorted,
              inv.stamp_clock, ?_, inv.bt_clock, ?_, ?_, ?_, inv.pos_stk, ?_,
              inv.A_sub, inv.B_sub, ?_, ?_, inv.cnt, inv.cyc_ok⟩
            · intro z hz
              rw [hmne z (fun he => hxs (he ▸ hz))]
              exact inv.stk_mark z hz
            · intro u hmu p hp
              by_cases hux : u = x
              · rw [hux, hmx1] at hmu; exact Bool.noConfusion hmu
              · rw [hmne u hux] at hmu
                exact inv.bt_own u hmu p hp
            · intro u hu hmu
              have hux : u ≠ x := fun he => hu (by rw [he]; simp)
              rw [hmne u hux] at hmu
              exact inv.bempty u hu hmu
            · intro u p hp hmp z hz hzp hzs
              by_cases hpx : p.1 = x
              · rw [hpx, hmx1] at hmp; exact Bool.noConfusion hmp
              · rw [hmne p.1 hpx] at hmp
                exact inv.blocked u p hp hmp z hz hzp hzs
            · intro u p hp hmp hsp z hz hzs
              by_cases hpx : p.1 = x
              · rw [hpx, hmx1] at hmp; exact Bool.noConfusion hmp
              · rw [hmne p.1 hpx] at hmp
                exact inv.anchored u p hp hmp hsp z hz hzs
            · intro u hu hmu hus
              have hux : u ≠ x := fun he => hu (by rw [he]; simp)
              rw [hmne u hux] at hmu
              exact inv.pos_off u hu hmu hus
            · intro u hu hmu
              have hux : u ≠ x := fun he => hu (by rw [he]; simp)
              rw [hmne u hux] at hmu
              exact inv.mark_reach u hu hmu
            · intro u hmu
              by_cases hux : u = x
              · rw [hux]; exact hxn
              · rw [hmne u hux] at hmu
                exact inv.mark_nodes u hmu
          have hE1 : ∀ w ∈ x :: E, s1.mark w = false := by
            intro w hw
            by_cases hwx : w = x
            · rw [hwx]; exact hmx1
            · rw [hmne w hwx]
              rcases List.mem_cons.mp hw with he | hm
              · exact absurd he hwx
              · exact hE w hm
          have hys : ∀ y ∈ s1.B x, ∃ τ, (y, τ) ∈ G.bt x ∧ ρ ≤ τ := by
            intro y hy
            have hy' : y ∈ (G.bt x).map Prod.fst := by
              rw [← inv.coup x]
              exact hy
            obtain ⟨p, hp, hfst⟩ := List.mem_map.mp hy'
            refine ⟨p.2, ?_, le_trans hρx (inv.bt_own x hmx p hp)⟩
            rw [← hfst]
            exact hp
          have hNE1 : ∀ u p, p ∈ G.bt u → s1.mark p.1 = true → G.stamp p.1 ≤ p.2 →
              ρ ≤ p.2 → ρ ≤ G.stamp p.1 := by
            intro u p hp hmp hsp hρp
            by_cases hpx : p.1 = x
            · rw [hpx, hmx1] at hmp; exact Bool.noConfusion hmp
            · rw [hmne p.1 hpx] at hmp
              exact hNE u p hp hmp hsp hρp
          obtain ⟨H2, lout⟩ :=
            unmarkLoop_spec A0 E x ρ (unmark fuel)
              (fun y t t' H h hy => ih y t t' H (x :: E) ρ h hy)
              (s1.B x) s1 s2 G heq inv1 hE1 hxs hxn hstk hNL hNE1 hys hpart
          have hmx2 : s2.mark x = false := by
            cases hm2 : s2.mark x with
            | false => rfl
            | true => rw [lout.mark_mono x hm2] at hmx1; exact Bool.noConfusion hmx1
          refine ⟨{ clock := H2.clock, stamp := H2.stamp, bt := upd H2.bt x [] },
            ?_, lout.stk_eq, lout.nodes_eq, lout.n_eq, lout.pos_eq, lout.reach_eq,
            lout.cycles_eq, lout.clock_eq, lout.stamp_eq, ?_, hmx2, ?_, ?_,
            lout.A_ext, ?_⟩
          · -- the bundle with x no longer exempt
            refine ⟨?_, lout.inv.ndn, lout.inv.neq, lout.inv.stk_nodes,
              lout.inv.stk_mark, lout.inv.stk_sorted, lout.inv.stamp_clock, ?_, ?_,
              ?_, ?_, ?_, lout.inv.pos_stk, ?_, lout.inv.A_sub, ?_, ?_,
              lout.inv.mark_nodes, ?_, lout.inv.cyc_ok⟩
            · intro u
              dsimp only
              by_cases hux : u = x
              · rw [hux, upd_same, upd_same]
                rfl
              · rw [upd_ne _ _ _ _ hux, upd_ne _ _ _ _ hux]
                exact lout.inv.coup u
            · intro u hmu p hp
              dsimp only at hp ⊢
              by_cases hux : u = x
              · rw [hux, upd_same] at hp
                exact absurd hp (by simp)
              · rw [upd_ne _ _ _ _ hux] at hp
                exact lout.inv.bt_own u hmu p hp
            · intro u p hp
              dsimp only at hp
              by_cases hux : u = x
              · rw [hux, upd_same] at hp
                exact absurd hp (by simp)
              · rw [upd_ne _ _ _ _ hux] at hp
                exact lout.inv.bt_clock u p hp
            · intro u hu hmu
              dsimp only
              by_cases hux : u = x
              · rw [hux, upd_same]
              · rw [upd_ne _ _ _ _ hux]
                exact lout.inv.bempty u (by
                  intro hm
                  rcases List.mem_cons.mp hm with he | hm'
                  · exact hux he
                  · exact hu hm') hmu
            · intro u p hp hmp z hz hzp hzs
              dsimp only at hp
              by_cases hux : u = x
              · rw [hux, upd_same] at hp
                exact absurd hp (by simp)
              · rw [upd_ne _ _ _ _ hux] at hp
                exact lout.inv.blocked u p hp hmp z hz hzp hzs
            · intro u p hp hmp hsp z hz hzs
              dsimp only at hp
              by_cases hux : u = x
              · rw [hux, upd_same] at hp
                exact absurd hp (by simp)
              · rw [upd_ne _ _ _ _ hux] at hp
                exact lout.inv.anchored u p hp hmp hsp z hz hzs
            · intro u hu hmu hus
              by_cases hux : u = x
              · rw [hux] at hmu
                rw [hmx2] at hmu
                exact Bool.noConfusion hmu
              · exact lout.inv.pos_off u (by
                  intro hm
                  rcases List.mem_cons.mp hm with he | hm'
                  · exact hux he
                  · exact hu hm') hmu hus
            · intro u w hw
              dsimp only at hw
              by_cases hux : u = x
              · rw [hux, upd_same] at hw
                exact absurd hw (by simp)
              · rw [upd_ne _ _ _ _ hux] at hw
                exact lout.inv.B_sub u w hw
            · intro u hu hmu
              by_cases hux : u = x
              · rw [hux, hmx2] at hmu
                exact Bool.noConfusion hmu
              · exact lout.inv.mark_reach u (by
                  intro hm
                  rcases List.mem_cons.mp hm with he | hm'
                  · exact hux he
                  · exact hu hm') hmu
            · intro u w hw
              dsimp only
              by_cases hwx : w = x
              · rw [hwx, upd_same]
                have h1 := lout.cnt_x u
                simpa using h1
              · rw [upd_ne _ _ _ _ hwx]
                exact lout.inv.cnt u w (by
                  intro hm
                  rcases List.mem_cons.mp hm with he | hm'
                  · exact hwx he
                  · exact hw hm')
          · -- mark_mono
            intro u hmu
            have h1 := lout.mark_mono u hmu
            by_cases hux : u = x
            · rw [hux, hmx1] at h1
              exact Bool.noConfusion h1
            · rw [hmne u hux] at h1
              exact h1
          · -- B_frozen
            intro u hmu
            have hux : u ≠ x := fun he => by rw [he, hmx] at hmu; exact Bool.noConfusion hmu
            have hmu1 : s1.mark u = false := by rw [hmne u hux]; exact hmu
            obtain ⟨hB, hbt⟩ := lout.B_frozen u hmu1
            constructor
            · show upd s2.B x [] u = s.B u
              rw [upd_ne _ _ _ _ hux, hB]
            · show upd H2.bt x [] u = G.bt u
              rw [upd_ne _ _ _ _ hux, hbt]
          · -- bt_shrink
            intro u
            dsimp only
            by_cases hux : u = x
            · rw [hux]
              exact Or.inr (upd_same _ _ _)
            · rw [upd_ne _ _ _ _ hux]
              exact lout.bt_shrink u
          · -- A_cnt_unm
            intro u w hmu
            have hwx : w ≠ x := fun he => by rw [he, hmx] at hmu; exact Bool.noConfusion hmu
            have hmu1 : s1.mark w = false := by rw [hmne w hwx]; exact hmu
            exact lout.A_cnt_unm u w hwx hmu1

end TRSL

namespace TRSL

theorem count_le_of_ext {l l' : List V} (h : ∃ t, l' = l ++ t) (y : V) :
    l.count y ≤ l'.count y := by
  obtain ⟨t, ht⟩ := h
  rw [ht, List.count_append]
  omega

/-- Postcondition of a successful `cycle(v, q)` call from state `s`. -/
structure COut (A0 : V → List V) (v : V) (s s' : SLState) (G G' : Ghost)
    (f : Bool) : Prop where
  inv : SInvE A0 [] s' G'
  stk_eq : s'.stk = s.stk
  nodes_eq : s'.nodes = s.nodes
  n_eq : s'.n = s.n
  stamp_stk : ∀ u ∈ s.stk, G'.stamp u = G.stamp u
  mark_stk : ∀ u ∈ s.stk, s'.mark u = s.mark u
  mark_root : f = false → s'.mark v = true
  A_stk : ∀ u ∈ s.stk, ∀ y, (s.A u).count y ≤ (s'.A u).count y

/-- Postcondition of the successor loop of `cycle(v, q)` from state `t`
(whose stack has `v` on top). -/
structure CLOut (A0 : V → List V) (t t' : SLState) (G G' : Ghost) : Prop where
  inv : SInvE A0 [] t' G'
  stk_eq : t'.stk = t.stk
  nodes_eq : t'.nodes = t.nodes
  n_eq : t'.n = t.n
  stamp_stk : ∀ u ∈ t.stk, G'.stamp u = G.stamp u
  mark_stk : ∀ u ∈ t.stk, t'.mark u = t.mark u
  A_anc : ∀ u ∈ t.stk.dropLast, ∀ y, (t.A u).count y ≤ (t'.A u).count y

theorem cycleLoop_spec (A0 : V → List V)
    (rec : V → Nat → SLState → Option (Bool × SLState)) (v : V) (q : Nat)
    (hrec : ∀ w t r G, rec w q t = some r → SInvE A0 [] t G →
      t.mark w = false → w ∈ t.nodes → q ≤ t.stk.length →
      ∃ G', COut A0 w t r.2 G G' r.1) :
    ∀ ws f t f' t' G S,
      cycleLoop rec v q ws f t = some (f', t') →
      SInvE A0 [] t G →
      t.stk = S ++ [v] →
      q ≤ t.stk.length →
      ∃ G', CLOut A0 t t' G G' := by
  intro ws
  induction ws with
  | nil =>
      intro f t f' t' G S hrun inv htop hq
      rw [cycleLoop] at hrun
      have ht : t' = t := congrArg Prod.snd (Option.some.inj hrun).symm
      subst ht
      exact ⟨G, inv, rfl, rfl, rfl, fun u _ => rfl, fun u _ => rfl,
        fun u _ y => le_refl _⟩
  | cons w ws ih =>
      intro f t f' t' G S hrun inv htop hq
      have hvt : v ∈ t.stk := by rw [htop]; simp
      have hvS : v ∉ S := by
        have hnd := inv.stk_nodup
        rw [htop] at hnd
        have := (List.pairwise_append.mp hnd).2.2
        intro hvS
        exact this v hvS v (by simp) rfl
      simp only [cycleLoop] at hrun
      split at hrun
      · next hwA =>
          split at hrun
          · next hmw =>
              -- fresh successor: recursive call
              split at hrun
              · exact Option.noConfusion hrun
              · next fw t2 heq2 =>
                  have hwn : w ∈ t.nodes := inv.A_sub v w hwA
                  obtain ⟨G2, cout⟩ := hrec w t (fw, t2) G heq2 inv hmw hwn hq
                  have htop2 : t2.stk = S ++ [v] := by rw [cout.stk_eq, htop]
                  have hq2 : q ≤ t2.stk.length := by rw [cout.stk_eq]; exact hq
                  split at hrun
                  · -- child found a cycle
                    obtain ⟨G3, lout⟩ := ih true t2 f' t' G2 S hrun cout.inv htop2 hq2
                    refine ⟨G3, lout.inv, ?_, ?_, ?_, ?_, ?_, ?_⟩
                    · rw [lout.stk_eq, cout.stk_eq]
                    · rw [lout.nodes_eq, cout.nodes_eq]
                    · rw [lout.n_eq, cout.n_eq]
                    · intro u hu
                      rw [lout.stamp_stk u (by rw [cout.stk_eq]; exact hu),
                          cout.stamp_stk u hu]
                    · intro u hu
                      rw [lout.mark_stk u (by rw [cout.stk_eq]; exact hu),
                          cout.mark_stk u hu]
                    · intro u hu y
                      have h1 := cout.A_stk u (List.mem_of_mem_dropLast hu) y
                      have h2 := lout.A_anc u (by rw [cout.stk_eq]; exact hu) y
                      exact le_trans h1 h2
                  · -- child failed: block the edge
                    next hfw =>
                    have hfw' : fw = false := by
                      cases fw
                      · rfl
                      · exact absurd rfl hfw
                    have hmw2 : t2.mark w = true := cout.mark_root hfw'
                    have hwA2 : w ∈ t2.A v := by
                      have hc : (t.A v).count w ≤ (t2.A v).count w := cout.A_stk v hvt w
                      have hpos : 0 < (t.A v).count w := List.count_pos_iff.mpr hwA
                      have hpos2 : 0 < (t2.A v).count w := by omega
                      exact List.count_pos_iff.mp hpos2
                    have inv3 := nocycle_spec A0 cout.inv htop2 hmw2 hwA2
                    have htop3 : (nocycle v w t2).stk = S ++ [v] := by
                      rw [nocycle_stk, htop2]
                    have hq3 : q ≤ (nocycle v w t2).stk.length := by
                      rw [htop3]
                      rw [htop] at hq
                      exact hq
                    obtain ⟨G4, lout⟩ := ih f (nocycle v w t2) f' t'
                      { clock := G2.clock, stamp := G2.stamp,
                        bt := upd G2.bt w (G2.bt w ++ [(v, G2.clock)]) } S
                      hrun inv3 htop3 hq3
                    rw [nocycle_eq hwA2] at lout
                    refine ⟨G4, lout.inv, ?_, ?_, ?_, ?_, ?_, ?_⟩
                    · rw [lout.stk_eq, cout.stk_eq]
                    · rw [lout.nodes_eq, cout.nodes_eq]
                    · rw [lout.n_eq, cout.n_eq]
                    · intro u hu
                      rw [lout.stamp_stk u (by rw [cout.stk_eq]; exact hu),
                          cout.stamp_stk u hu]
                    · intro u hu
                      rw [lout.mark_stk u (by rw [cout.stk_eq]; exact hu),
                          cout.mark_stk u hu]
                    · intro u hu y
                      have h1 := cout.A_stk u (List.mem_of_mem_dropLast hu) y
                      have h2 := lout.A_anc u (by rw [cout.stk_eq]; exact hu) y
                      have hunv : u ≠ v := by
                        intro he
                        rw [htop, List.dropLast_concat] at hu
                        exact hvS (he ▸ hu)
                      have h3 : (({ t2 with
                          B := upd t2.B w (t2.B w ++ [v]),
                          A := upd t2.A v ((t2.A v).erase w) } : SLState).A u).count y
                          = (t2.A u).count y := by
                        dsimp only
                        rw [upd_ne _ _ _ _ hunv]
                      rw [h3] at h2
                      exact le_trans h1 h2
          · next hmw =>
              -- marked successor
              have hmwt : t.mark w = true := by
                cases hm : t.mark w
                · exact absurd hm hmw
                · rfl
              split at hrun
              · next hpos =>
                  -- record a cycle
                  have inv2 := record_SInv A0 inv hmwt hpos hq
                  obtain ⟨G3, lout⟩ := ih true _ f' t' G S hrun inv2 htop hq
                  exact ⟨G3, lout.inv, lout.stk_eq, lout.nodes_eq, lout.n_eq,
                    lout.stamp_stk, lout.mark_stk, lout.A_anc⟩
              · next hpos =>
                  -- block the edge
                  have inv3 := nocycle_spec A0 inv htop hmwt hwA
                  have htop3 : (nocycle v w t).stk = S ++ [v] := by
                    rw [nocycle_stk, htop]
                  have hq3 : q ≤ (nocycle v w t).stk.length := by
                    rw [nocycle_stk]
                    exact hq
                  obtain ⟨G4, lout⟩ := ih f (nocycle v w t) f' t'
                    { clock := G.clock, stamp := G.stamp,
                      bt := upd G.bt w (G.bt w ++ [(v, G.clock)]) } S
                    hrun inv3 htop3 hq3
                  rw [nocycle_eq hwA] at lout
                  refine ⟨G4, lout.inv, lout.stk_eq, lout.nodes_eq, lout.n_eq,
                    lout.stamp_stk, lout.mark_stk, ?_⟩
                  intro u hu y
                  have h2 := lout.A_anc u hu y
                  have hunv : u ≠ v := by
                    intro he
                    rw [htop, List.dropLast_concat] at hu
                    exact hvS (he ▸ hu)
                  have h3 : (({ t with
                      B := upd t.B w (t.B w ++ [v]),
                      A := upd t.A v ((t.A v).erase w) } : SLState).A u).count y
                      = (t.A u).count y := by
                    dsimp only
                    rw [upd_ne _ _ _ _ hunv]
                  rw [h3] at h2
                  exact h2
      · exact ih f t f' t' G S hrun inv htop hq

end TRSL

namespace TRSL

/-- The epilogue of `cycle(v, q)` after a cascading unmark: setting `reach[v]`
and parking `position[v]` at `n + 1` restores the unexempted bundle. -/
theorem final_SInv_unmarked (A0 : V → List V) {s5 : SLState} {G5 : Ghost} {v : V}
    (inv5 : SInvE A0 [] s5 G5) (hmv5 : s5.mark v = false) (hvs5 : v ∉ s5.stk) :
    SInvE A0 []
      { s5 with reach := upd s5.reach v true,
                position := upd s5.position v (s5.n + 1) } G5 := by
  refine ⟨inv5.coup, inv5.ndn, inv5.neq, inv5.stk_nodes, inv5.stk_mark,
    inv5.stk_sorted, inv5.stamp_clock, inv5.bt_own, inv5.bt_clock, inv5.bempty,
    inv5.blocked, inv5.anchored, ?_, ?_, inv5.A_sub, inv5.B_sub, ?_,
    inv5.mark_nodes, inv5.cnt, inv5.cyc_ok⟩
  · -- pos_stk
    intro i x hx
    dsimp only at hx ⊢
    have hxs : x ∈ s5.stk := by
      obtain ⟨h', hget⟩ := List.getElem?_eq_some.mp hx
      rw [← hget]
      exact List.getElem_mem h'
    rw [upd_ne _ _ _ _ (fun he => hvs5 (by rw [← he]; exact hxs))]
    exact inv5.pos_stk i x hx
  · -- pos_off
    intro u _ hmu hus
    dsimp only at hmu hus ⊢
    by_cases huv : u = v
    · rw [huv, hmv5] at hmu
      exact Bool.noConfusion hmu
    · rw [upd_ne _ _ _ _ huv]
      exact inv5.pos_off u (by simp) hmu hus
  · -- mark_reach
    intro u _ hmu
    dsimp only at hmu ⊢
    by_cases huv : u = v
    · rw [huv, hmv5] at hmu
      exact Bool.noConfusion hmu
    · rw [upd_ne _ _ _ _ huv]
      exact inv5.mark_reach u (by simp) hmu

/-- The epilogue of `cycle(v, q)` when no cycle was found: `v` stays marked,
`reach[v]` is set and `position[v]` is parked at `n + 1`, clearing `v`'s
exemption. -/
theorem final_SInv_marked (A0 : V → List V) {s5 : SLState} {G5 : Ghost} {v : V}
    (inv5 : SInvE A0 [v] s5 G5) (hmv5 : s5.mark v = true) (hvs5 : v ∉ s5.stk)
    (hcnt : ∀ u, (s5.A u).count v + (s5.B v).count u = (A0 u).count v) :
    SInvE A0 []
      { s5 with reach := upd s5.reach v true,
                position := upd s5.position v (s5.n + 1) } G5 := by
  refine ⟨inv5.coup, inv5.ndn, inv5.neq, inv5.stk_nodes, inv5.stk_mark,
    inv5.stk_sorted, inv5.stamp_clock, inv5.bt_own, inv5.bt_clock, ?_,
    inv5.blocked, inv5.anchored, ?_, ?_, inv5.A_sub, inv5.B_sub, ?_,
    inv5.mark_nodes, ?_, inv5.cyc_ok⟩
  · -- bempty
    intro u _ hmu
    by_cases huv : u = v
    · rw [huv, hmv5] at hmu
      exact Bool.noConfusion hmu
    · exact inv5.bempty u (by simp [huv]) hmu
  · -- pos_stk
    intro i x hx
    dsimp only at hx ⊢
    have hxs : x ∈ s5.stk := by
      obtain ⟨h', hget⟩ := List.getElem?_eq_some.mp hx
      rw [← hget]
      exact List.getElem_mem h'
    rw [upd_ne _ _ _ _ (fun he => hvs5 (by rw [← he]; exact hxs))]
    exact inv5.pos_stk i x hx
  · -- pos_off
    intro u _ hmu hus
    dsimp only at hmu hus ⊢
    by_cases huv : u = v
    · rw [huv, upd_same]
    · rw [upd_ne _ _ _ _ huv]
      exact inv5.pos_off u (by simp [huv]) hmu hus
  · -- mark_reach
    intro u _ hmu
    dsimp only at hmu ⊢
    by_cases huv : u = v
    · rw [huv, upd_same]
      exact Or.inl rfl
    · rw [upd_ne _ _ _ _ huv]
      exact inv5.mark_reach u (by simp [huv]) hmu
  · -- cnt
    intro u w _
    by_cases hwv : w = v
    · rw [hwv]
      exact hcnt u
    · exact inv5.cnt u w (by simp [hwv])

end TRSL

namespace TRSL

theorem cycle_spec (A0 : V → List V) : ∀ fuel v q s f s' G,
    cycle fuel v q s = some (f, s') → SInvE A0 [] s G →
    s.mark v = false → v ∈ s.nodes → q ≤ s.stk.length →
    ∃ G', COut A0 v s s' G G' f := by
  intro fuel
  induction fuel with
  | zero => intro v q s f s' G h _ _ _ _; exact Option.noConfusion h
  | succ fuel ih =>
      intro v q s f s' G hrun inv hmv hvn hq
      have hvs : v ∉ s.stk := fun h => by
        rw [inv.stk_mark v h] at hmv
        exact Bool.noConfusion hmv
      simp only [cycle] at hrun
      split at hrun
      · exact Option.noConfusion hrun
      · next f3 s3 heq =>
          have inv2 := push_SInv A0 inv hmv hvn
          have hrec' : ∀ w t r G',
              cycle fuel w (if s.reach v = true then q else (s.stk ++ [v]).length) t
                = some r →
              SInvE A0 [] t G' → t.mark w = false → w ∈ t.nodes →
              (if s.reach v = true then q else (s.stk ++ [v]).length) ≤ t.stk.length →
              ∃ G'', COut A0 w t r.2 G' G'' r.1 := by
            intro w t r G' h hi hm hw hq'
            exact ih w _ t r.1 r.2 G' h hi hm hw hq'
          have hq2 : (if s.reach v = true then q else (s.stk ++ [v]).length) ≤
              (s.stk ++ [v]).length := by
            split
            · rw [List.length_append]
              simp only [List.length_singleton]
              omega
            · exact le_refl _
          obtain ⟨G3, lout⟩ := cycleLoop_spec A0 (cycle fuel) v _ hrec' (s.A v)
            false _ f3 s3 _ s.stk heq inv2 rfl hq2
          have hstk3 : s3.stk = s.stk ++ [v] := lout.stk_eq
          have hnodes3 : s3.nodes = s.nodes := lout.nodes_eq
          have hn3 : s3.n = s.n := lout.n_eq
          have hvP : v ∈ s.stk ++ [v] := by simp
          have hm3v : s3.mark v = true := by
            rw [lout.mark_stk v hvP]
            exact upd_same _ _ _
          have hstamp3 : ∀ u ∈ s.stk, G3.stamp u = G.stamp u := by
            intro u hu
            rw [lout.stamp_stk u (List.mem_append_left _ hu)]
            show upd G.stamp v (G.clock + 1) u = G.stamp u
            rw [upd_ne _ _ _ _ (fun he => hvs (by rw [← he]; exact hu))]
          have hsv3 : G3.stamp v = G.clock + 1 := by
            rw [lout.stamp_stk v hvP]
            exact upd_same _ _ _
          have hstkρ : ∀ z ∈ s.stk, G3.stamp z < G3.stamp v := by
            intro z hz
            rw [hstamp3 z hz, hsv3]
            exact Nat.lt_succ_of_le (inv.stamp_clock z)
          have hAanc : ∀ u ∈ s.stk, ∀ y, (s.A u).count y ≤ (s3.A u).count y := by
            intro u hu y
            have := lout.A_anc u (by
              show u ∈ (s.stk ++ [v]).dropLast
              rw [List.dropLast_concat]
              exact hu) y
            exact this
          have hs4eq : ({ s3 with stk := s3.stk.dropLast } : SLState) =
              { s3 with stk := s.stk } := by
            rw [hstk3, List.dropLast_concat]
          have inv4 : SInvE A0 [v] ({ s3 with stk := s3.stk.dropLast } : SLState) G3 := by
            rw [hs4eq]
            exact pop_SInv A0 lout.inv hstk3
          split at hrun
          · exact Option.noConfusion hrun
          · next s5 heq5 =>
              cases hrun
              by_cases hf3 : f = true
              · -- a cycle was found: cascade-unmark v
                rw [if_pos hf3] at heq5
                have hyp : UHyp A0 [] v (G3.stamp v)
                    ({ s3 with stk := s3.stk.dropLast } : SLState) G3 := by
                  refine ⟨inv4, fun w hw => absurd hw (List.not_mem_nil w),
                    hm3v, ?_, ?_, ?_, le_refl _, ?_, ?_, ?_⟩
                  · show v ∉ s3.stk.dropLast
                    rw [hstk3, List.dropLast_concat]
                    exact hvs
                  · show v ∈ s3.nodes
                    rw [hnodes3]
                    exact hvn
                  · intro z hz
                    have hz' : z ∈ s.stk := by
                      rw [hstk3, List.dropLast_concat] at hz
                      exact hz
                    exact hstkρ z hz'
                  · -- NOLATE
                    intro u p hp hps hsp
                    by_contra hge
                    push_neg at hge
                    have hps' : p.1 ∈ s.stk := by
                      rw [hstk3, List.dropLast_concat] at hps
                      exact hps
                    have hmp : s3.mark p.1 = true :=
                      lout.inv.stk_mark p.1 (by
                        rw [hstk3]
                        exact List.mem_append_left _ hps')
                    have hanch := lout.inv.anchored u p hp hmp hsp v (by
                      rw [hstk3]; exact hvP) hge
                    have := hstkρ p.1 hps'
                    omega
                  · -- NOEARLY
                    intro u p hp hmp hsp hρp
                    exact lout.inv.anchored u p hp hmp hsp v (by
                      rw [hstk3]; exact hvP) hρp
                  · intro u
                    exact lout.inv.cnt u v (by simp)
                obtain ⟨G5, uout⟩ := unmark_spec A0 fuel v _ s5 G3 [] (G3.stamp v)
                  heq5 hyp
                have hm5v : s5.mark v = false := uout.mark_x
                have hstk5 : s5.stk = s.stk := by
                  rw [uout.stk_eq]
                  show s3.stk.dropLast = s.stk
                  rw [hstk3, List.dropLast_concat]
                have hvs5 : v ∉ s5.stk := by rw [hstk5]; exact hvs
                refine ⟨G5, final_SInv_unmarked A0 uout.inv hm5v hvs5, hstk5, ?_, ?_,
                  ?_, ?_, ?_, ?_⟩
                · show s5.nodes = s.nodes
                  rw [uout.nodes_eq]
                  exact hnodes3
                · show s5.n = s.n
                  rw [uout.n_eq]
                  exact hn3
                · intro u hu
                  show G5.stamp u = G.stamp u
                  rw [uout.stamp_eq]
                  exact hstamp3 u hu
                · intro u hu
                  show s5.mark u = s.mark u
                  rw [uout.inv.stk_mark u (by rw [hstk5]; exact hu),
                      inv.stk_mark u hu]
                · intro habs
                  rw [hf3] at habs
                  exact Bool.noConfusion habs
                · intro u hu y
                  refine le_trans (hAanc u hu y) ?_
                  show (s3.A u).count y ≤ (s5.A u).count y
                  exact count_le_of_ext (uout.A_ext u) y
              · -- no cycle found: v stays marked
                rw [if_neg hf3] at heq5
                have hs5 : s5 = ({ s3 with stk := s3.stk.dropLast } : SLState) :=
                  (Option.some.inj heq5).symm
                subst hs5
                have hvs4 : v ∉ s3.stk.dropLast := by
                  rw [hstk3, List.dropLast_concat]
                  exact hvs
                refine ⟨G3, ?_, ?_, hnodes3, hn3, ?_, ?_, ?_, ?_⟩
                · refine final_SInv_marked A0 inv4 hm3v hvs4 ?_
                  intro u
                  exact lout.inv.cnt u v (by simp)
                · show s3.stk.dropLast = s.stk
                  rw [hstk3, List.dropLast_concat]
                · intro u hu
                  exact hstamp3 u hu
                · intro u hu
                  show s3.mark u = s.mark u
                  rw [lout.mark_stk u (List.mem_append_left _ hu)]
                  show upd s.mark v true u = s.mark u
                  rw [upd_ne _ _ _ _ (fun he => hvs (by rw [← he]; exact hu))]
                · intro _
                  exact hm3v
                · intro u hu y
                  exact hAanc u hu y

end TRSL

namespace TRSL

/-- The freshly constructed `SzwarcfiterLauer` object satisfies the bundle
with the zero ghost. -/
theorem SInv_init (g : Graph) (ns : List V) (hnd : ns.Nodup) :
    SInvE (buildA g ns) [] (initSL g ns)
      { clock := 0, stamp := fun _ => 0, bt := fun _ => [] } := by
  refine ⟨fun x => rfl, hnd, rfl, ?_, ?_, List.Pairwise.nil, fun x => le_refl _,
    ?_, ?_, fun x _ _ => rfl, ?_, ?_, ?_, ?_, ?_, ?_, ?_, ?_, ?_, ?_⟩
  · intro x hx
    exact absurd hx (List.not_mem_nil x)
  · intro x hx
    exact absurd hx (List.not_mem_nil x)
  · intro x hx p hp
    exact absurd hp (List.not_mem_nil p)
  · intro x p hp
    exact absurd hp (List.not_mem_nil p)
  · intro x p hp
    exact absurd hp (List.not_mem_nil p)
  · intro x p hp
    exact absurd hp (List.not_mem_nil p)
  · intro i x hx
    exact Option.noConfusion hx
  · intro x _ hmx
    exact Bool.noConfusion hmx
  · intro u w hw
    exact buildA_sub g ns u w hw
  · intro u w hw
    exact absurd hw (List.not_mem_nil w)
  · intro x _ hmx
    exact Bool.noConfusion hmx
  · intro x hmx
    exact Bool.noConfusion hmx
  · intro u w _
    show (buildA g ns u).count w + (([] : List V)).count u = (buildA g ns u).count w
    simp
  · intro c hc
    exact absurd hc (List.not_mem_nil c)

theorem runLoop_spec (A0 : V → List V) (fuel : Nat) : ∀ cs s s' G,
    runLoop fuel cs s = some s' → SInvE A0 [] s G → s.stk = [] →
    (∀ c ∈ cs, c ∈ s.nodes) →
    ∃ G', SInvE A0 [] s' G' ∧ s'.stk = [] := by
  intro cs
  induction cs with
  | nil =>
      intro s s' G h inv hstk _
      rw [runLoop] at h
      cases h
      exact ⟨G, inv, hstk⟩
  | cons c cs ih =>
      intro s s' G h inv hstk hcs
      rw [runLoop] at h
      split at h
      · exact ih s s' G h inv hstk
          (fun d hd => hcs d (List.mem_cons_of_mem _ hd))
      · next hreach =>
          split at h
          · exact Option.noConfusion h
          · next f2 s2 heq =>
              have hmc : s.mark c = false := by
                cases hm : s.mark c with
                | false => rfl
                | true =>
                    rcases inv.mark_reach c (by simp) hm with hr | hs
                    · exact absurd hr hreach
                    · rw [hstk] at hs
                      exact absurd hs (List.not_mem_nil c)
              obtain ⟨G2, cout⟩ := cycle_spec A0 fuel c 0 s f2 s2 G heq inv hmc
                (hcs c (List.mem_cons_self c cs)) (Nat.zero_le _)
              exact ih s2 s' G2 h cout.inv (by rw [cout.stk_eq]; exact hstk)
                (fun d hd => by
                  rw [cout.nodes_eq]
                  exact hcs d (List.mem_cons_of_mem _ hd))

/-- Partial correctness of `SzwarcfiterLauer(graph, nodes).run()`: whatever
fuel it succeeds at, every returned cycle is a closed elementary cycle. -/
theorem runSL_spec {g : Graph} {ns : List V} {fuel : Nat} {cs : List (List V)}
    (hnd : ns.Nodup) (h : runSL g ns fuel = some cs) :
    ∀ c ∈ cs, ElemClosed c := by
  simp only [runSL] at h
  obtain ⟨sf, hsf, hmap⟩ := Option.map_eq_some'.mp h
  obtain ⟨G', inv', _⟩ := runLoop_spec (buildA g ns) fuel _ (initSL g ns) sf
    { clock := 0, stamp := fun _ => 0, bt := fun _ => [] } hsf
    (SInv_init g ns hnd) rfl
    (fun c hc => sortDesc_mem _ _ c hc)
  rw [← hmap]
  exact inv'.cyc_ok

theorem processScc_fold (g : Graph) (fuel : Nat) :
    ∀ sccs acc cs, (∀ c ∈ sccs, c.Nodup) →
      List.foldlM (processScc g fuel) acc sccs = some cs →
      (∀ c ∈ acc, ElemClosed c) → ∀ c ∈ cs, ElemClosed c := by
  intro sccs
  induction sccs with
  | nil =>
      intro acc cs _ h hacc
      rw [List.foldlM_nil] at h
      cases h
      exact hacc
  | cons scc sccs ih =>
      intro acc cs hnd h hacc
      rw [List.foldlM_cons] at h
      cases hp : processScc g fuel acc scc with
      | none => rw [hp] at h; exact Option.noConfusion h
      | some acc2 =>
          rw [hp] at h
          refine ih acc2 cs (fun c hc => hnd c (List.mem_cons_of_mem _ hc)) h ?_
          cases scc with
          | nil =>
              simp only [processScc] at hp
              cases hp
              exact hacc
          | cons node rest =>
              simp only [processScc] at hp
              split at hp
              · cases hp
                exact hacc
              · obtain ⟨rcs, hrcs, hacc2⟩ := Option.map_eq_some'.mp hp
                intro c hc
                rw [← hacc2] at hc
                rcases List.mem_append.mp hc with h1 | h1
                · exact hacc c h1
                · exact runSL_spec (hnd (node :: rest) (List.mem_cons_self _ _))
                    hrcs c h1

end TRSL

namespace TRSL

/-- Number of marked vertices, the termination measure of `_unmark`. -/
def mCount (s : SLState) : Nat := (s.nodes.filter (fun u => s.mark u)).length

theorem filter_length_mono {ns : List V} {m m' : V → Bool}
    (h : ∀ u, m' u = true → m u = true) :
    (ns.filter m').length ≤ (ns.filter m).length := by
  induction ns with
  | nil => exact le_refl _
  | cons a ns ih =>
      rw [List.filter_cons, List.filter_cons]
      by_cases hm' : m' a = true
      · rw [if_pos hm', if_pos (h a hm')]
        simp only [List.length_cons]
        omega
      · rw [if_neg hm']
        by_cases hm : m a = true
        · rw [if_pos hm]
          simp only [List.length_cons]
          omega
        · rw [if_neg hm]
          exact ih

theorem filter_length_unmark {ns : List V} (hnd : ns.Nodup) {m : V → Bool} {x : V}
    (hx : x ∈ ns) (hmx : m x = true) :
    (ns.filter (upd m x false)).length + 1 = (ns.filter m).length := by
  induction ns with
  | nil => cases hx
  | cons a ns ih =>
      rw [List.nodup_cons] at hnd
      rw [List.filter_cons, List.filter_cons]
      rcases List.mem_cons.mp hx with he | hm
      · have hfeq : ns.filter (upd m x false) = ns.filter m := by
          refine List.filter_congr ?_
          intro u hu
          have hux : u ≠ x := fun h' => hnd.1 (by rw [← he, ← h']; exact hu)
          rw [upd_ne _ _ _ _ hux]
        rw [← he, upd_same, if_neg (by simp), if_pos hmx, hfeq,
            List.length_cons]
      · have hax : a ≠ x := fun he' => hnd.1 (by rw [he']; exact hm)
        rw [upd_ne _ _ _ _ hax]
        have hih := ih hnd.2 hm
        by_cases hma : m a = true
        · rw [if_pos hma, if_pos hma]
          simp only [List.length_cons]
          omega
        · rw [if_neg hma, if_neg hma]
          exact hih

theorem unmarkLoop_basic (rec : V → SLState → Option SLState)
    (hrec : ∀ y t t', rec y t = some t' → t'.nodes = t.nodes ∧
      (∀ u, t'.mark u = true → t.mark u = true) ∧
      (∀ u w, w ∈ t'.B u → w ∈ t.B u)) (x : V) :
    ∀ ys t t', unmarkLoop rec x ys t = some t' → t'.nodes = t.nodes ∧
      (∀ u, t'.mark u = true → t.mark u = true) ∧
      (∀ u w, w ∈ t'.B u → w ∈ t.B u) := by
  intro ys
  induction ys with
  | nil =>
      intro t t' h
      rw [unmarkLoop] at h
      cases h
      exact ⟨rfl, fun u h => h, fun u w h => h⟩
  | cons y ys ih =>
      intro t t' h
      rw [unmarkLoop] at h
      split at h
      · split at h
        · exact Option.noConfusion h
        · next t2 heq =>
            obtain ⟨hn1, hm1, hB1⟩ :=
              hrec y { t with A := upd t.A y (t.A y ++ [x]) } t2 heq
            obtain ⟨hn2, hm2, hB2⟩ := ih t2 t' h
            exact ⟨hn2.trans hn1, fun u hu => hm1 u (hm2 u hu),
              fun u w hw => hB1 u w (hB2 u w hw)⟩
      · obtain ⟨hn2, hm2, hB2⟩ := ih _ t' h
        exact ⟨hn2, hm2, hB2⟩

theorem unmark_basic : ∀ fuel x s s', unmark fuel x s = some s' →
    s'.nodes = s.nodes ∧ (∀ u, s'.mark u = true → s.mark u = true) ∧
    (∀ u w, w ∈ s'.B u → w ∈ s.B u) := by
  intro fuel
  induction fuel with
  | zero => intro x s s' h; exact Option.noConfusion h
  | succ fuel ih =>
      intro x s s' h
      simp only [unmark] at h
      split at h
      · exact Option.noConfusion h
      · next s2 heq =>
          cases h
          obtain ⟨hn, hm, hB⟩ := unmarkLoop_basic (unmark fuel) (ih) x (s.B x)
            { s with mark := upd s.mark x false } s2 heq
          refine ⟨hn, ?_, ?_⟩
          · intro u hu
            have h1 : upd s.mark x false u = true := hm u hu
            by_cases hux : u = x
            · rw [hux, upd_same] at h1
              exact Bool.noConfusion h1
            · rw [upd_ne _ _ _ _ hux] at h1
              exact h1
          · intro u w hw
            have hw' : w ∈ upd s2.B x [] u := hw
            by_cases hux : u = x
            · rw [hux, upd_same] at hw'
              exact absurd hw' (List.not_mem_nil w)
            · rw [upd_ne _ _ _ _ hux] at hw'
              exact hB u w hw'

end TRSL

namespace TRSL

theorem unmarkLoop_total (F : Nat) (rec : V → SLState → Option SLState)
    (hrec_some : ∀ y t, t.mark y = true → y ∈ t.nodes → t.nodes.Nodup →
      (∀ u w, w ∈ t.B u → w ∈ t.nodes) → mCount t ≤ F → (rec y t).isSome = true)
    (hrec_basic : ∀ y t t', rec y t = some t' → t'.nodes = t.nodes ∧
      (∀ u, t'.mark u = true → t.mark u = true) ∧
      (∀ u w, w ∈ t'.B u → w ∈ t.B u)) (x : V) :
    ∀ ys t, (∀ y ∈ ys, y ∈ t.nodes) → t.nodes.Nodup →
      (∀ u w, w ∈ t.B u → w ∈ t.nodes) → mCount t ≤ F →
      (unmarkLoop rec x ys t).isSome = true := by
  intro ys
  induction ys with
  | nil =>
      intro t _ _ _ _
      rw [unmarkLoop]
      rfl
  | cons y ys ih =>
      intro t hys hnd hBsub hc
      rw [unmarkLoop]
      by_cases hmy : ({ t with A := upd t.A y (t.A y ++ [x]) } : SLState).mark y = true
      · rw [if_pos hmy]
        have hsome := hrec_some y { t with A := upd t.A y (t.A y ++ [x]) } hmy
          (hys y (List.mem_cons_self y ys)) hnd hBsub hc
        obtain ⟨t2, ht2⟩ := Option.isSome_iff_exists.mp hsome
        rw [ht2]
        obtain ⟨hn, hm, hB⟩ := hrec_basic y _ t2 ht2
        refine ih t2 ?_ ?_ ?_ ?_
        · intro y' hy'
          rw [hn]
          exact hys y' (List.mem_cons_of_mem _ hy')
        · rw [hn]
          exact hnd
        · intro u w hw
          rw [hn]
          exact hBsub u w (hB u w hw)
        · have hle : mCount t2 ≤ mCount t := by
            show (t2.nodes.filter (fun u => t2.mark u)).length ≤ _
            rw [hn]
            exact filter_length_mono hm
          omega
      · rw [if_neg hmy]
        exact ih _ (fun y' hy' => hys y' (List.mem_cons_of_mem _ hy')) hnd hBsub hc

theorem unmark_total : ∀ fuel x s, s.mark x = true → x ∈ s.nodes →
    s.nodes.Nodup → (∀ u w, w ∈ s.B u → w ∈ s.nodes) → mCount s ≤ fuel →
    (unmark fuel x s).isSome = true := by
  intro fuel
  induction fuel with
  | zero =>
      intro x s hmx hxn hnd _ hc
      have hmem : x ∈ s.nodes.filter (fun u => s.mark u) :=
        List.mem_filter.mpr ⟨hxn, by rw [hmx]⟩
      have hpos : 0 < mCount s := List.length_pos_of_mem hmem
      omega
  | succ fuel ih =>
      intro x s hmx hxn hnd hBsub hc
      simp only [unmark]
      have hc1 : mCount ({ s with mark := upd s.mark x false } : SLState) + 1 =
          mCount s := filter_length_unmark hnd hxn hmx
      have hloop := unmarkLoop_total fuel (unmark fuel)
        (fun y t hmy hyn hnd' hB' hct => ih y t hmy hyn hnd' hB' hct)
        (fun y t t' h => unmark_basic fuel y t t' h) x (s.B x)
        { s with mark := upd s.mark x false }
        (fun y hy => hBsub x y hy) hnd hBsub (by omega)
      obtain ⟨s2, hs2⟩ := Option.isSome_iff_exists.mp hloop
      rw [hs2]
      rfl

end TRSL

namespace TRSL

theorem cycleLoop_total (A0 : V → List V) (fuel : Nat) (v : V) (q : Nat)
    (hrec_total : ∀ w t G, SInvE A0 [] t G → t.mark w = false → w ∈ t.nodes →
      q ≤ t.stk.length → 2 * t.n + 2 ≤ fuel + t.stk.length →
      (cycle fuel w q t).isSome = true)
    (hrec_spec : ∀ w t r G, cycle fuel w q t = some r → SInvE A0 [] t G →
      t.mark w = false → w ∈ t.nodes → q ≤ t.stk.length →
      ∃ G', COut A0 w t r.2 G G' r.1) :
    ∀ ws f t G S, SInvE A0 [] t G → t.stk = S ++ [v] → q ≤ t.stk.length →
      2 * t.n + 2 ≤ fuel + t.stk.length →
      (cycleLoop (cycle fuel) v q ws f t).isSome = true := by
  intro ws
  induction ws with
  | nil =>
      intro f t G S _ _ _ _
      rw [cycleLoop]
      rfl
  | cons w ws ih =>
      intro f t G S inv htop hq hfuel
      rw [cycleLoop]
      by_cases hwA : w ∈ t.A v
      · rw [if_pos hwA]
        by_cases hmw : t.mark w = false
        · rw [if_pos hmw]
          have hwn : w ∈ t.nodes := inv.A_sub v w hwA
          have hsome := hrec_total w t G inv hmw hwn hq hfuel
          obtain ⟨r, hr⟩ := Option.isSome_iff_exists.mp hsome
          rw [hr]
          obtain ⟨G2, cout⟩ := hrec_spec w t r G hr inv hmw hwn hq
          obtain ⟨fw, t2⟩ := r
          have htop2 : t2.stk = S ++ [v] := by
            rw [cout.stk_eq, htop]
          have hq2 : q ≤ t2.stk.length := by
            rw [cout.stk_eq]
            exact hq
          have hfuel2 : 2 * t2.n + 2 ≤ fuel + t2.stk.length := by
            have h1 : t2.n = t.n := cout.n_eq
            have h2 : t2.stk = t.stk := cout.stk_eq
            rw [h1, h2]
            exact hfuel
          dsimp only
          by_cases hfw : fw = true
          · rw [if_pos hfw]
            exact ih true t2 G2 S cout.inv htop2 hq2 hfuel2
          · rw [if_neg hfw]
            have hfw' : fw = false := by
              cases fw
              · rfl
              · exact absurd rfl hfw
            have hmw2 : t2.mark w = true := cout.mark_root hfw'
            have hwA2 : w ∈ t2.A v := by
              have hvt : v ∈ t.stk := by rw [htop]; simp
              have hc : (t.A v).count w ≤ (t2.A v).count w := cout.A_stk v hvt w
              have hpos : 0 < (t.A v).count w := List.count_pos_iff.mpr hwA
              have hpos2 : 0 < (t2.A v).count w := by omega
              exact List.count_pos_iff.mp hpos2
            have inv3 := nocycle_spec A0 cout.inv htop2 hmw2 hwA2
            have hstk3 : (nocycle v w t2).stk = S ++ [v] := by
              rw [nocycle_stk, htop2]
            have hn3 : (nocycle v w t2).n = t2.n := by
              rw [nocycle_eq hwA2]
            refine ih f (nocycle v w t2) _ S inv3 hstk3 ?_ ?_
            · rw [nocycle_stk]
              exact hq2
            · rw [hn3, nocycle_stk]
              exact hfuel2
        · rw [if_neg hmw]
          have hmwt : t.mark w = true := by
            cases hm : t.mark w
            · exact absurd hm hmw
            · rfl
          by_cases hpos : t.position w ≤ q
          · rw [if_pos hpos]
            have inv2 := record_SInv A0 inv hmwt hpos hq
            exact ih true _ G S inv2 htop hq hfuel
          · rw [if_neg hpos]
            have inv3 := nocycle_spec A0 inv htop hmwt hwA
            have hstk3 : (nocycle v w t).stk = S ++ [v] := by
              rw [nocycle_stk, htop]
            have hn3 : (nocycle v w t).n = t.n := by
              rw [nocycle_eq hwA]
            refine ih f (nocycle v w t) _ S inv3 hstk3 ?_ ?_
            · rw [nocycle_stk]
              exact hq
            · rw [hn3, nocycle_stk]
              exact hfuel
      · rw [if_neg hwA]
        exact ih f t G S inv htop hq hfuel

theorem cycle_total (A0 : V → List V) : ∀ fuel v q s G, SInvE A0 [] s G →
    s.mark v = false → v ∈ s.nodes → q ≤ s.stk.length →
    2 * s.n + 2 ≤ fuel + s.stk.length →
    (cycle fuel v q s).isSome = true := by
  intro fuel
  induction fuel with
  | zero =>
      intro v q s G inv _ _ _ hfuel
      have h1 := inv.stk_le_n
      omega
  | succ fuel ih =>
      intro v q s G inv hmv hvn hq hfuel
      have hvs : v ∉ s.stk := fun h => by
        rw [inv.stk_mark v h] at hmv
        exact Bool.noConfusion hmv
      simp only [cycle]
      have inv2 := push_SInv A0 inv hmv hvn
      have hrec_spec' : ∀ w t r G',
          cycle fuel w (if s.reach v = true then q else (s.stk ++ [v]).length) t
            = some r →
          SInvE A0 [] t G' → t.mark w = false → w ∈ t.nodes →
          (if s.reach v = true then q else (s.stk ++ [v]).length) ≤ t.stk.length →
          ∃ G'', COut A0 w t r.2 G' G'' r.1 := by
        intro w t r G' h hi hm hw hq'
        exact cycle_spec A0 fuel w _ t r.1 r.2 G' h hi hm hw hq'
      have hq2 : (if s.reach v = true then q else (s.stk ++ [v]).length) ≤
          (s.stk ++ [v]).length := by
        split
        · rw [List.length_append]
          simp only [List.length_singleton]
          omega
        · exact le_refl _
      have hfuel2 : 2 * s.n + 2 ≤ fuel + (s.stk ++ [v]).length := by
        rw [List.length_append]
        simp only [List.length_singleton]
        omega
      have hloop := cycleLoop_total A0 fuel v
        (if s.reach v = true then q else (s.stk ++ [v]).length)
        (fun w t G' hi hm hw hq' hb => ih w _ t G' hi hm hw hq' hb)
        hrec_spec' (s.A v) false _ _ s.stk inv2 rfl hq2 hfuel2
      obtain ⟨r3, h3⟩ := Option.isSome_iff_exists.mp hloop
      rw [h3]
      obtain ⟨f3, s3⟩ := r3
      obtain ⟨G3, lout⟩ := cycleLoop_spec A0 (cycle fuel) v _ hrec_spec' (s.A v)
        false _ f3 s3 _ s.stk h3 inv2 rfl hq2
      have hstk3 : s3.stk = s.stk ++ [v] := lout.stk_eq
      have hnodes3 : s3.nodes = s.nodes := lout.nodes_eq
      have hn3 : s3.n = s.n := lout.n_eq
      have hm3v : s3.mark v = true := by
        rw [lout.mark_stk v (by simp)]
        exact upd_same _ _ _
      have hs4eq : ({ s3 with stk := s3.stk.dropLast } : SLState) =
          { s3 with stk := s.stk } := by
        rw [hstk3, List.dropLast_concat]
      have inv4 : SInvE A0 [v] ({ s3 with stk := s3.stk.dropLast } : SLState) G3 := by
        rw [hs4eq]
        exact pop_SInv A0 lout.inv hstk3
      dsimp only
      by_cases hf3 : f3 = true
      · rw [if_pos hf3]
        have hum := unmark_total fuel v ({ s3 with stk := s3.stk.dropLast } : SLState)
          hm3v (by
            show v ∈ s3.nodes
            rw [hnodes3]
            exact hvn)
          inv4.ndn (fun u w hw => inv4.B_sub u w hw) (by
            have h1 : mCount ({ s3 with stk := s3.stk.dropLast } : SLState) ≤
                s3.nodes.length := List.length_filter_le _ _
            have h2 : s3.nodes.length = s.n := by
              rw [hnodes3, ← inv.neq]
            have h3 := inv.stk_le_n
            omega)
        obtain ⟨s5, h5⟩ := Option.isSome_iff_exists.mp hum
        rw [h5]
        rfl
      · rw [if_neg hf3]
        rfl

end TRSL

namespace TRSL

theorem runLoop_total (A0 : V → List V) (fuel : Nat) : ∀ cs s G,
    SInvE A0 [] s G → s.stk = [] → (∀ c ∈ cs, c ∈ s.nodes) →
    2 * s.n + 2 ≤ fuel →
    (runLoop fuel cs s).isSome = true := by
  intro cs
  induction cs with
  | nil =>
      intro s G _ _ _ _
      rw [runLoop]
      rfl
  | cons c cs ih =>
      intro s G inv hstk hcs hfuel
      rw [runLoop]
      by_cases hr : s.reach c = true
      · rw [if_pos hr]
        exact ih s G inv hstk (fun d hd => hcs d (List.mem_cons_of_mem _ hd)) hfuel
      · rw [if_neg hr]
        have hmc : s.mark c = false := by
          cases hm : s.mark c with
          | false => rfl
          | true =>
              rcases inv.mark_reach c (by simp) hm with h1 | h1
              · exact absurd h1 hr
              · rw [hstk] at h1
                exact absurd h1 (List.not_mem_nil c)
        have hct := cycle_total A0 fuel c 0 s G inv hmc
          (hcs c (List.mem_cons_self c cs)) (Nat.zero_le _)
          (by rw [hstk]; simpa using hfuel)
        obtain ⟨r2, h2⟩ := Option.isSome_iff_exists.mp hct
        rw [h2]
        obtain ⟨f2, s2⟩ := r2
        obtain ⟨G2, cout⟩ := cycle_spec A0 fuel c 0 s f2 s2 G h2 inv hmc
          (hcs c (List.mem_cons_self c cs)) (Nat.zero_le _)
        refine ih s2 G2 cout.inv (by rw [cout.stk_eq]; exact hstk) ?_ ?_
        · intro d hd
          rw [cout.nodes_eq]
          exact hcs d (List.mem_cons_of_mem _ hd)
        · rw [cout.n_eq]
          exact hfuel

theorem runSL_total (g : Graph) (ns : List V) (fuel : Nat) (hnd : ns.Nodup)
    (hfuel : 2 * ns.length + 2 ≤ fuel) : (runSL g ns fuel).isSome = true := by
  simp only [runSL]
  have h := runLoop_total (buildA g ns) fuel
    (sortDesc (indeg (initSL g ns)) (initSL g ns).nodes) (initSL g ns)
    { clock := 0, stamp := fun _ => 0, bt := fun _ => [] }
    (SInv_init g ns hnd) rfl (fun c hc => sortDesc_mem _ _ c hc) hfuel
  obtain ⟨sf, hsf⟩ := Option.isSome_iff_exists.mp h
  rw [hsf]
  rfl

/-- Enough fuel for the whole pipeline on `g`: both the Tarjan pass and every
per-SCC search are covered. -/
def pipeFuel (g : Graph) : Nat := 2 * (verts g).toFinset.card + 2

theorem processScc_fold_total (g : Graph) (fuel : Nat) :
    ∀ sccs acc, (∀ c ∈ sccs, c.Nodup) →
      (∀ c ∈ sccs, ∀ x ∈ c, x ∈ verts g) →
      pipeFuel g ≤ fuel →
      (List.foldlM (processScc g fuel) acc sccs).isSome = true := by
  intro sccs
  induction sccs with
  | nil =>
      intro acc _ _ _
      rw [List.foldlM_nil]
      rfl
  | cons scc sccs ih =>
      intro acc hnd hsub hfuel
      rw [List.foldlM_cons]
      have hsome : (processScc g fuel acc scc).isSome = true := by
        cases scc with
        | nil => rfl
        | cons node rest =>
            simp only [processScc]
            split
            · rfl
            · have hlen : (node :: rest).length ≤ (verts g).toFinset.card := by
                have h1 : (node :: rest).length = (node :: rest).toFinset.card :=
                  (List.toFinset_card_of_nodup
                    (hnd (node :: rest) (List.mem_cons_self _ _))).symm
                have h2 : (node :: rest).toFinset.card ≤ (verts g).toFinset.card := by
                  refine Finset.card_le_card ?_
                  intro x hx
                  exact List.mem_toFinset.mpr
                    (hsub (node :: rest) (List.mem_cons_self _ _) x
                      (List.mem_toFinset.mp hx))
                omega
              have hrun := runSL_total g (node :: rest) fuel
                (hnd (node :: rest) (List.mem_cons_self _ _))
                (by
                  show 2 * (node :: rest).length + 2 ≤ fuel
                  have := hfuel
                  rw [pipeFuel] at this
                  omega)
              obtain ⟨rcs, hrcs⟩ := Option.isSome_iff_exists.mp hrun
              rw [hrcs]
              rfl
      obtain ⟨acc2, hacc2⟩ := Option.isSome_iff_exists.mp hsome
      rw [hacc2]
      exact ih acc2 (fun c hc => hnd c (List.mem_cons_of_mem _ hc))
        (fun c hc => hsub c (List.mem_cons_of_mem _ hc)) hfuel

theorem pipeline_total (g : Graph) {fuel : Nat} (hfuel : pipeFuel g ≤ fuel) :
    (pipeline g fuel).isSome = true := by
  rw [pipeline]
  have hkv : ∀ v ∈ keys g, v ∈ verts g := fun v hv => by
    simp only [verts, List.mem_append]
    exact Or.inl hv
  have hcard : unCard g initT < fuel := by
    have hle : unCard g initT ≤ (verts g).toFinset.card :=
      Finset.card_le_card (Finset.filter_subset _ _)
    rw [pipeFuel] at hfuel
    omega
  obtain ⟨st, hst, inv', _, _, _, _, _⟩ :=
    getSccsLoop_total g fuel (keys g) initT (TInv_initT g) rfl hkv hcard
  have hgs : get_sccs g fuel = some st.sccs := by
    rw [get_sccs, hst]
    rfl
  rw [hgs]
  have hsub : ∀ c ∈ st.sccs, ∀ x ∈ c, x ∈ verts g := by
    intro c hc x hx
    have hxfl : x ∈ st.sccs.flatten := List.mem_flatten.mpr ⟨c, hc, hx⟩
    have hix : (st.indices x).isSome := (inv'.indexed_iff x).mpr (Or.inr hxfl)
    exact inv'.indexed_verts x hix
  exact processScc_fold_total g fuel st.sccs [] inv'.sccs_nodup hsub hfuel

end TRSL

namespace TRSL

/-- The blocking-list bookkeeping invariant of the specification, in multiset
form: together the working adjacency `A[x]` and the blocking list `B[y]`
account for every original occurrence of the edge `x → y` in `A0[x]`. -/
def cntInv (A0 : V → List V) (s : SLState) : Prop :=
  ∀ x y, (s.A x).count y + (s.B y).count x = (A0 x).count y

theorem unmarkLoop_frozen (rec : V → SLState → Option SLState)
    (hrec_basic : ∀ y t t', rec y t = some t' → t'.nodes = t.nodes ∧
      (∀ u, t'.mark u = true → t.mark u = true) ∧
      (∀ u w, w ∈ t'.B u → w ∈ t.B u))
    (hrecF : ∀ z t t' x, rec z t = some t' → t.mark x = false → z ≠ x →
      (∀ u, (t'.A u).count x = (t.A u).count x) ∧ t'.B x = t.B x ∧
        t'.mark x = false) (z : V) :
    ∀ ys t t' x, unmarkLoop rec z ys t = some t' → t.mark x = false → z ≠ x →
      (∀ u, (t'.A u).count x = (t.A u).count x) ∧ t'.B x = t.B x ∧
        t'.mark x = false := by
  intro ys
  induction ys with
  | nil =>
      intro t t' x h hmx hzx
      rw [unmarkLoop] at h
      cases h
      exact ⟨fun u => rfl, rfl, hmx⟩
  | cons y ys ih =>
      intro t t' x h hmx hzx
      rw [unmarkLoop] at h
      have hstep : ∀ u,
          (({ t with A := upd t.A y (t.A y ++ [z]) } : SLState).A u).count x =
          (t.A u).count x := by
        intro u
        dsimp only
        by_cases huy : u = y
        · subst huy
          rw [upd_same, List.count_append]
          have hz0 : ([z] : List V).count x = 0 := by
            simp [List.count_singleton']
            intro he
            exact hzx he
          omega
        · rw [upd_ne _ _ _ _ huy]
      split at h
      · next hmy =>
          split at h
          · exact Option.noConfusion h
          · next t2 heq =>
              have hyx : y ≠ x := fun he => by
                rw [he] at hmy
                have : ({ t with A := upd t.A y (t.A y ++ [z]) } : SLState).mark x
                    = false := hmx
                rw [this] at hmy
                exact Bool.noConfusion hmy
              obtain ⟨hA2, hB2, hm2⟩ := hrecF y _ t2 x heq hmx hyx
              obtain ⟨hA3, hB3, hm3⟩ := ih t2 t' x h hm2 hzx
              refine ⟨?_, ?_, hm3⟩
              · intro u
                rw [hA3 u, hA2 u, hstep u]
              · rw [hB3, hB2]
      · obtain ⟨hA3, hB3, hm3⟩ := ih _ t' x h hmx hzx
        refine ⟨?_, hB3, hm3⟩
        intro u
        rw [hA3 u, hstep u]

theorem unmark_frozen : ∀ fuel z t t' x, unmark fuel z t = some t' →
    t.mark x = false → z ≠ x →
    (∀ u, (t'.A u).count x = (t.A u).count x) ∧ t'.B x = t.B x ∧
      t'.mark x = false := by
  intro fuel
  induction fuel with
  | zero => intro z t t' x h _ _; exact Option.noConfusion h
  | succ fuel ih =>
      intro z t t' x h hmx hzx
      simp only [unmark] at h
      split at h
      · exact Option.noConfusion h
      · next s2 heq =>
          cases h
          have hmx1 : ({ t with mark := upd t.mark z false } : SLState).mark x
              = false := by
            show upd t.mark z false x = false
            rw [upd_ne _ _ _ _ (fun he => hzx he.symm)]
            exact hmx
          obtain ⟨hA2, hB2, hm2⟩ := unmarkLoop_frozen (unmark fuel)
            (fun y t1 t1' h1 => unmark_basic fuel y t1 t1' h1)
            (fun z1 t1 t1' x1 h1 hm1 hz1 => ih z1 t1 t1' x1 h1 hm1 hz1) z
            (t.B z) _ s2 x heq hmx1 hzx
          refine ⟨hA2, ?_, hm2⟩
          show upd s2.B z [] x = t.B x
          rw [upd_ne _ _ _ _ (fun he => hzx he.symm), hB2]

theorem unmarkLoop_restore (rec : V → SLState → Option SLState)
    (hrec_basic : ∀ y t t', rec y t = some t' → t'.nodes = t.nodes ∧
      (∀ u, t'.mark u = true → t.mark u = true) ∧
      (∀ u w, w ∈ t'.B u → w ∈ t.B u))
    (hrecF : ∀ z t t' x, rec z t = some t' → t.mark x = false → z ≠ x →
      (∀ u, (t'.A u).count x = (t.A u).count x) ∧ t'.B x = t.B x ∧
        t'.mark x = false) (x : V) :
    ∀ ys t t', unmarkLoop rec x ys t = some t' → t.mark x = false →
      (∀ u, (t'.A u).count x = (t.A u).count x + ys.count u) ∧
        t'.B x = t.B x ∧ t'.mark x = false := by
  intro ys
  induction ys with
  | nil =>
      intro t t' h hmx
      rw [unmarkLoop] at h
      cases h
      refine ⟨fun u => by simp, rfl, hmx⟩
  | cons y ys ih =>
      intro t t' h hmx
      rw [unmarkLoop] at h
      have hstep : ∀ u,
          (({ t with A := upd t.A y (t.A y ++ [x]) } : SLState).A u).count x =
          (t.A u).count x + (if u = y then 1 else 0) := by
        intro u
        dsimp only
        by_cases huy : u = y
        · subst huy
          rw [upd_same, List.count_append, if_pos rfl]
          simp
        · rw [upd_ne _ _ _ _ huy, if_neg huy]
          omega
      have hcnt : ∀ u, (y :: ys).count u = ys.count u + (if u = y then 1 else 0) := by
        intro u
        by_cases huy : u = y
        · rw [if_pos huy, huy, List.count_cons_self]
        · rw [if_neg huy, List.count_cons_of_ne huy]
          omega
      split at h
      · next hmy =>
          split at h
          · exact Option.noConfusion h
          · next t2 heq =>
              have hyx : y ≠ x := fun he => by
                rw [he] at hmy
                have hfm : ({ t with A := upd t.A y (t.A y ++ [x]) } : SLState).mark x
                    = false := hmx
                rw [hfm] at hmy
                exact Bool.noConfusion hmy
              obtain ⟨hA2, hB2, hm2⟩ := hrecF y _ t2 x heq hmx hyx
              obtain ⟨hA3, hB3, hm3⟩ := ih t2 t' h hm2
              refine ⟨?_, ?_, hm3⟩
              · intro u
                rw [hA3 u, hA2 u, hstep u, hcnt u]
                omega
              · rw [hB3, hB2]
      · obtain ⟨hA3, hB3, hm3⟩ := ih _ t' h hmx
        refine ⟨?_, hB3, hm3⟩
        intro u
        rw [hA3 u, hstep u, hcnt u]
        omega

/-- Invariant-free description of `_unmark(x)`: it clears `B[x]` and
re-appends `x` to `A[y]` once per recorded occurrence of `y` in `B[x]`. -/
theorem unmark_restore : ∀ fuel x s s', unmark fuel x s = some s' →
    s'.B x = [] ∧ ∀ u, (s'.A u).count x = (s.A u).count x + (s.B x).count u := by
  intro fuel x s s' h
  cases fuel with
  | zero => exact Option.noConfusion h
  | succ fuel =>
      simp only [unmark] at h
      split at h
      · exact Option.noConfusion h
      · next s2 heq =>
          cases h
          have hmx1 : ({ s with mark := upd s.mark x false } : SLState).mark x
              = false := upd_same _ _ _
          obtain ⟨hA2, hB2, hm2⟩ := unmarkLoop_restore (unmark fuel)
            (fun y t1 t1' h1 => unmark_basic fuel y t1 t1' h1)
            (fun z1 t1 t1' x1 h1 hm1 hz1 => unmark_frozen fuel z1 t1 t1' x1 h1 hm1 hz1)
            x (s.B x) _ s2 heq hmx1
          constructor
          · show upd s2.B x [] x = []
            exact upd_same _ _ _
          · intro u
            exact hA2 u

end TRSL

namespace TRSL

/-- C1: at every fuel at which the per-graph pipeline of
`run_all_graphs_from_toml` returns a cycle list, every returned cycle is a
closed elementary cycle: its first element equals its last element, it has at
least two entries, and after dropping the closing entry no vertex repeats. -/
theorem claim_C1_elementary_cycles (g : Graph) (fuel : Nat) (cs : List (List V))
    (h : pipeline g fuel = some cs) :
    ∀ c ∈ cs, c.head? = c.getLast? ∧ c.dropLast.Nodup ∧ 2 ≤ c.length := by
  rw [pipeline] at h
  split at h
  · exact Option.noConfusion h
  · next sccs heqs =>
      have hnd := (get_sccs_sound g heqs).1
      exact processScc_fold g fuel sccs [] cs hnd h
        (fun c hc => absurd hc (List.not_mem_nil c))

theorem claim_C1_elementary_cycles_witness :
    ([2, 1, 2] : List V).head? = ([2, 1, 2] : List V).getLast? ∧
    ([2, 1, 2] : List V).dropLast.Nodup ∧ 2 ≤ ([2, 1, 2] : List V).length :=
  claim_C1_elementary_cycles [(1, [2]), (2, [1])] 8 [[2, 1, 2]] (by rfl)
    [2, 1, 2] (by decide)

/-- C4: the Szwarcfiter–Lauer search is total: on any duplicate-free vertex
list (in particular on every SCC handed over by the Tarjan phase) and any
graph, `SzwarcfiterLauer(graph, nodes).run()` returns a result; fuel
`2·|nodes| + 2` (bounding the recursion depth of `cycle` and `_unmark`)
always suffices, so the embedded search never exhausts its fuel. -/
theorem claim_C4_termination (g : Graph) (ns : List V) (fuel : Nat)
    (hnd : ns.Nodup) (hfuel : 2 * ns.length + 2 ≤ fuel) :
    ∃ cs, runSL g ns fuel = some cs :=
  Option.isSome_iff_exists.mp (runSL_total g ns fuel hnd hfuel)

theorem claim_C4_termination_witness :
    ∃ cs, runSL [(5, [5])] [5] 4 = some cs :=
  claim_C4_termination [(5, [5])] [5] 4 (by decide) (by decide)

/-- C7: the blocking-list invariant.  In multiset form (`cntInv`), `B[y]`
records exactly the occurrences of the edge `x → y` that `_nocycle` removed
from the working adjacency `A[x]` and `_unmark` has not yet restored:
(1) it holds at construction; (2) it means `x ∈ B[y]` iff fewer copies of
`x → y` remain in `A[x]` than in the initial adjacency; (3) `_nocycle(x, y)`
preserves it whenever the removed edge is still present (as at both call
sites); (4) `_unmark(x)` clears `B[x]` and re-appends `x` to `A[y]` once per
recorded occurrence of `y`; (5) every completed `cycle(v, q)` call preserves
it. -/
theorem claim_C7_blocking_invariant :
    (∀ g ns, cntInv (buildA g ns) (initSL g ns)) ∧
    (∀ A0 s, cntInv A0 s →
      ∀ x y, x ∈ s.B y ↔ (s.A x).count y < (A0 x).count y) ∧
    (∀ A0 s x y, cntInv A0 s → y ∈ s.A x → cntInv A0 (nocycle x y s)) ∧
    (∀ fuel x s s', unmark fuel x s = some s' →
      s'.B x = [] ∧
      ∀ u, (s'.A u).count x = (s.A u).count x + (s.B x).count u) ∧
    (∀ A0 fuel v q s f s' G, SInvE A0 [] s G → s.mark v = false →
      v ∈ s.nodes → q ≤ s.stk.length → cycle fuel v q s = some (f, s') →
      cntInv A0 s') := by
  refine ⟨?_, ?_, ?_, ?_, ?_⟩
  · intro g ns x y
    show (buildA g ns x).count y + (([] : List V)).count x = (buildA g ns x).count y
    simp
  · intro A0 s hc x y
    have h := hc x y
    constructor
    · intro hx
      have hpos : 0 < (s.B y).count x := List.count_pos_iff.mpr hx
      omega
    · intro hlt
      have hpos : 0 < (s.B y).count x := by omega
      exact List.count_pos_iff.mp hpos
  · intro A0 s x y hc hyA
    rw [nocycle_eq hyA]
    intro u w
    have h := hc u w
    dsimp only
    by_cases hux : u = x
    · subst hux
      by_cases hwy : w = y
      · subst hwy
        rw [upd_same, upd_same, List.count_append, List.count_erase_self]
        have hpos : 0 < (s.A u).count w := List.count_pos_iff.mpr hyA
        have hone : ([u] : List V).count u = 1 := by simp
        omega
      · rw [upd_same, upd_ne _ _ _ _ hwy, List.count_erase_of_ne hwy]
        exact h
    · by_cases hwy : w = y
      · subst hwy
        rw [upd_ne _ _ _ _ hux, upd_same, List.count_append]
        have hz : ([x] : List V).count u = 0 := by
          simp [List.count_singleton']
          intro he
          exact absurd he.symm hux
        omega
      · rw [upd_ne _ _ _ _ hux, upd_ne _ _ _ _ hwy]
        exact h
  · intro fuel x s s' h
    exact unmark_restore fuel x s s' h
  · intro A0 fuel v q s f s' G inv hmv hvn hq h
    obtain ⟨G', cout⟩ := cycle_spec A0 fuel v q s f s' G h inv hmv hvn hq
    intro x y
    exact cout.inv.cnt x y (by simp)

theorem claim_C7_blocking_invariant_witness :
    cntInv (buildA [(1, [2]), (2, [1])] [1, 2]) (initSL [(1, [2]), (2, [1])] [1, 2]) ∧
    (2 ∈ (initSL [(1, [2]), (2, [1])] [1, 2]).B 1 ↔
      ((initSL [(1, [2]), (2, [1])] [1, 2]).A 2).count 1 <
        (buildA [(1, [2]), (2, [1])] [1, 2] 2).count 1) ∧
    cntInv (buildA [(1, [2]), (2, [1])] [1, 2])
      (nocycle 1 2 (initSL [(1, [2]), (2, [1])] [1, 2])) ∧
    ((unmark 2 2 (nocycle 1 2 (initSL [(1, [2]), (2, [1])] [1, 2]))).map
      (fun s' => s'.B 2) = some []) ∧
    cntInv (buildA [(1, [2]), (2, [1])] [1, 2])
      ((cycle 4 1 0 (initSL [(1, [2]), (2, [1])] [1, 2])).getD
        (true, initSL [(1, [2]), (2, [1])] [1, 2])).2 := by
  refine ⟨claim_C7_blocking_invariant.1 [(1, [2]), (2, [1])] [1, 2],
    claim_C7_blocking_invariant.2.1 _ _
      (claim_C7_blocking_invariant.1 [(1, [2]), (2, [1])] [1, 2]) 2 1,
    claim_C7_blocking_invariant.2.2.1 _ _ 1 2
      (claim_C7_blocking_invariant.1 [(1, [2]), (2, [1])] [1, 2]) (by decide),
    ?_, ?_⟩
  · obtain ⟨s', hs'⟩ := Option.isSome_iff_exists.mp
      (by decide :
        (unmark 2 2 (nocycle 1 2 (initSL [(1, [2]), (2, [1])] [1, 2]))).isSome = true)
    rw [hs', Option.map_some']
    have h4 := claim_C7_blocking_invariant.2.2.2.1 2 2 _ s' hs'
    exact congrArg some h4.1
  · obtain ⟨r, hr⟩ := Option.isSome_iff_exists.mp
      (by decide :
        (cycle 4 1 0 (initSL [(1, [2]), (2, [1])] [1, 2])).isSome = true)
    rw [hr, Option.getD_some]
    exact claim_C7_blocking_invariant.2.2.2.2 _ 4 1 0 _ r.1 r.2 _
      (SInv_init [(1, [2]), (2, [1])] [1, 2] (by decide)) rfl (by decide)
      (Nat.zero_le _) hr

/-- C8: the pipeline never crashes on dangling successor entries: for every
graph (keys with arbitrary successor lists, dangling targets included) the
SCC decomposition and all per-SCC cycle searches complete, at any fuel of at
least `pipeFuel g`. -/
theorem claim_C8_dangling_pipeline (g : Graph) (fuel : Nat)
    (hfuel : pipeFuel g ≤ fuel) : ∃ cs, pipeline g fuel = some cs :=
  Option.isSome_iff_exists.mp (pipeline_total g hfuel)

theorem claim_C8_dangling_pipeline_witness :
    ∃ cs, pipeline [(1, [2, 3]), (2, [1])] 8 = some cs :=
  claim_C8_dangling_pipeline [(1, [2, 3]), (2, [1])] 8 (by decide)

end TRSL
